import Mathlib

/-!
Verification of the connect-fors board engine (`src/game.rs`) and search
engine (`src/ai.rs`) against the natural-language specification.

Modelling conventions:
* Rust `u64` bitboards become `Nat` (all values stay below `2 ^ 49 ≤ 2 ^ 64`,
  so `&&&`/`|||`/`^^^`/`>>>`/`<<<` on `Nat` agree with the `u64` operations;
  the one place a 64-bit cast truncates, `u64 as i32`, is modelled explicitly
  by `toI32`).
* `heights : [u8; 7]` becomes a `List Nat` of length 7 (the length is part of
  the reachability invariant), `history : Vec<Column>` becomes a `List Column`
  stored most-recent-first (`Vec::push`/`Vec::pop` act on the list head).
* Methods taking `&mut self` become functions returning the updated board;
  `try_move` returns the board paired with the `Result` so that the error
  paths visibly leave the board unchanged.
* `rand::rng` based tie-breaking (`SliceRandom::choose`) is modelled by an
  explicit `pick` argument; `Option::unwrap` on an empty move list (a Rust
  panic, only possible on boards that are not reachable through legal play)
  is modelled by `Option.getD` with a junk default, and every theorem that
  could meet this case is restricted to reachable boards.
-/

namespace ConnectFors

/-- Model of `Column` from `src/game.rs`. -/
inductive Column where
  | One | Two | Three | Four | Five | Six | Seven
  deriving DecidableEq, Repr

/-- Model of `Column::all` from `src/game.rs`. -/
def Column.all : List Column :=
  [Column.One, Column.Two, Column.Three, Column.Four, Column.Five, Column.Six,
    Column.Seven]

/-- Model of `Column::to_u8` from `src/game.rs`. -/
def Column.to_u8 : Column → Nat
  | Column.One => 1
  | Column.Two => 2
  | Column.Three => 3
  | Column.Four => 4
  | Column.Five => 5
  | Column.Six => 6
  | Column.Seven => 7

/-- Model of `Column::to_index` from `src/game.rs` (`to_u8() as usize - 1`). -/
def Column.to_index (c : Column) : Nat := c.to_u8 - 1

/-- Model of `Player` from `src/game.rs`. -/
inductive Player where
  | One | Two
  deriving DecidableEq, Repr

/-- Model of `Player::from_move_count` from `src/game.rs` (`count & 1`). -/
def Player.from_move_count (count : Nat) : Player :=
  match count &&& 1 with
  | 0 => Player.One
  | _ => Player.Two

/-- Model of `BoardStatus` from `src/game.rs`. -/
inductive BoardStatus where
  | Winner (p : Player) | Draw | OnGoing
  deriving DecidableEq, Repr

/-- Model of `MoveError` from `src/game.rs`. -/
inductive MoveError where
  | FullColumn | ConcludedGame
  deriving DecidableEq, Repr

/-- Model of `TOP` from `src/game.rs`: the absolute bit index of the guard bit of each
column (one above the topmost playable cell). -/
def TOP : List Nat := [6, 13, 20, 27, 34, 41, 48]

/-- Model of `TOP_BITBOARD` from `src/game.rs`: the seven guard bits. -/
def TOP_BITBOARD : Nat :=
  0b1000000100000010000001000000100000010000001000000

/-- Model of `ConnectFourBoard` from `src/game.rs`. -/
structure ConnectFourBoard where
  player_one_bitboard : Nat
  player_two_bitboard : Nat
  move_count : Nat
  heights : List Nat
  history : List Column
  deriving DecidableEq, Repr

/-- Model of `ConnectFourBoard::default` from `src/game.rs`: each height starts at the
bottom bit index of its column. -/
def defaultBoard : ConnectFourBoard :=
  { player_one_bitboard := 0
    player_two_bitboard := 0
    move_count := 0
    heights := [0, 7, 14, 21, 28, 35, 42]
    history := [] }

/-- Model of `has_winner` from `src/game.rs`: shift-and-AND four-in-a-row detection on
one player's bitboard (step 7 = horizontal, 1 = vertical, 6 and 8 = the two
diagonals). -/
def has_winner (bitboard : Nat) : Bool :=
  let horizontal := bitboard &&& (bitboard >>> 7)
  let vertical := bitboard &&& (bitboard >>> 1)
  let diag_one := bitboard &&& (bitboard >>> 6)
  let diag_two := bitboard &&& (bitboard >>> 8)
  ((diag_one &&& (diag_one >>> (2 * 6))) |||
      (horizontal &&& (horizontal >>> (2 * 7))) |||
      (diag_two &&& (diag_two >>> (2 * 8))) |||
      (vertical &&& (vertical >>> 2))) != 0

/-- Model of `ConnectFourBoard::current_player` from `src/game.rs`. -/
def current_player (b : ConnectFourBoard) : Player :=
  Player.from_move_count b.move_count

/-- Model of `ConnectFourBoard::status` from `src/game.rs`: win checks for player one,
then player two, then the draw check, then ongoing. -/
def status (b : ConnectFourBoard) : BoardStatus :=
  if has_winner b.player_one_bitboard then BoardStatus.Winner Player.One
  else if has_winner b.player_two_bitboard then BoardStatus.Winner Player.Two
  else if b.move_count = 42 then BoardStatus.Draw
  else BoardStatus.OnGoing

/-- Model of `ConnectFourBoard::is_playable` from `src/game.rs`. -/
def is_playable (b : ConnectFourBoard) (column : Column) : Bool :=
  let idx := column.to_index
  decide (b.heights.getD idx 0 < TOP.getD idx 0)

/-- Model of `ConnectFourBoard::column_height` from `src/game.rs`. -/
def column_height (b : ConnectFourBoard) (column : Column) : Nat :=
  b.heights.getD column.to_index 0 % 7

/-- Model of `ConnectFourBoard::try_move` from `src/game.rs`.  The Rust method mutates
`&mut self` and returns `Result<u64, MoveError>`; here the updated board is
returned alongside the result, an error leaving the board component equal to
the input. -/
def try_move (b : ConnectFourBoard) (column : Column) :
    ConnectFourBoard × Except MoveError Nat :=
  if status b ≠ BoardStatus.OnGoing then
    (b, Except.error MoveError.ConcludedGame)
  else if is_playable b column = false then
    (b, Except.error MoveError.FullColumn)
  else
    let idx := column.to_index
    let next_position := 1 <<< b.heights.getD idx 0
    let b1 :=
      match current_player b with
      | Player.One =>
          { b with player_one_bitboard := b.player_one_bitboard ^^^ next_position }
      | Player.Two =>
          { b with player_two_bitboard := b.player_two_bitboard ^^^ next_position }
    ({ b1 with
        move_count := b1.move_count + 1
        heights := b1.heights.set idx (b1.heights.getD idx 0 + 1)
        history := column :: b1.history },
      Except.ok next_position)

/-- Model of `ConnectFourBoard::pop_move` from `src/game.rs`: pops the last played
column, decrements the move counter and the column height, then XORs out the
bit of the player derived from the already-decremented counter. -/
def pop_move (b : ConnectFourBoard) : ConnectFourBoard :=
  match b.history with
  | [] => b
  | column :: rest =>
    let idx := column.to_index
    let b1 :=
      { b with
          history := rest
          move_count := b.move_count - 1
          heights := b.heights.set idx (b.heights.getD idx 0 - 1) }
    let old_position := 1 <<< b1.heights.getD idx 0
    match current_player b1 with
    | Player.One =>
        { b1 with player_one_bitboard := b1.player_one_bitboard ^^^ old_position }
    | Player.Two =>
        { b1 with player_two_bitboard := b1.player_two_bitboard ^^^ old_position }

-- Scratch sanity checks of the embedding against the Rust unit tests
-- (`places_piece_in_column_*`, `determines_when_winner_exists`, ...).
example : (try_move defaultBoard Column.One).2 = Except.ok 1 := rfl
example : (try_move defaultBoard Column.Two).2 = Except.ok 128 := rfl
example : has_winner 0b1111000000000000000000000000000000000000000000000 = true := by
  decide
example : has_winner 0b1000000100000010000001000000000000000000000000000 = true := by
  decide
example : has_winner 0b1110000000000000000000000000000000000000000000000 = false := by
  decide
example : pop_move (try_move defaultBoard Column.Three).1 = defaultBoard := by decide

/-! ### Win detection: reference predicate and equivalence (claim C1) -/

/-- Cell `(c, r)` of a bitboard under the packing of `src/game.rs`:
column `c` (0-based, left to right) occupies bits `7*c .. 7*c+5`, row `r`
(0-based, bottom to top). -/
def cellBit (b c r : Nat) : Bool := b.testBit (7 * c + r)

/-- Reference four-in-a-row predicate: brute-force enumeration of every
horizontal, vertical, ascending-diagonal and descending-diagonal window of
four cells lying fully inside the 6 x 7 grid. -/
def hasFour (b : Nat) : Bool :=
  ((List.range 4).any fun c => (List.range 6).any fun r =>
      cellBit b c r && cellBit b (c+1) r && cellBit b (c+2) r &&
        cellBit b (c+3) r) ||
  ((List.range 7).any fun c => (List.range 3).any fun r =>
      cellBit b c r && cellBit b c (r+1) && cellBit b c (r+2) &&
        cellBit b c (r+3)) ||
  ((List.range 4).any fun c => (List.range 3).any fun r =>
      cellBit b c r && cellBit b (c+1) (r+1) && cellBit b (c+2) (r+2) &&
        cellBit b (c+3) (r+3)) ||
  ((List.range 4).any fun c => (List.range 3).any fun r =>
      cellBit b c (r+3) && cellBit b (c+1) (r+2) && cellBit b (c+2) (r+1) &&
        cellBit b (c+3) r)

/-- Mask of the 42 playable cells: bits `7*c + r` for `c < 7`, `r < 6`
(every bit below 49 that is not a guard bit). -/
def CELLMASK : Nat := 279258638311359

example : CELLMASK ||| TOP_BITBOARD = 2^49 - 1 := by decide
example : CELLMASK &&& TOP_BITBOARD = 0 := by decide

lemma ne_zero_iff_testBit (n : Nat) : n ≠ 0 ↔ ∃ i, n.testBit i = true := by
  constructor
  · intro h
    by_contra hc
    push_neg at hc
    refine h (Nat.eq_of_testBit_eq fun i => ?_)
    rw [Nat.zero_testBit]
    simpa using hc i
  · rintro ⟨i, hi⟩ h0
    rw [h0, Nat.zero_testBit] at hi
    simp at hi

lemma cellmask_testBit {j : Nat} (h : CELLMASK.testBit j = true) :
    j % 7 < 6 ∧ j < 49 := by
  by_cases hj : j < 49
  · have hmod : ∀ j, j < 49 → CELLMASK.testBit j = true → j % 7 < 6 := by decide
    exact ⟨hmod j hj h, hj⟩
  · have hlt : CELLMASK < 2 ^ j := by
      calc CELLMASK < 2 ^ 49 := by decide
      _ ≤ 2 ^ j := Nat.pow_le_pow_right (by decide) (by omega)
    rw [Nat.testBit_lt_two_pow hlt] at h
    simp at h

/-- A set bit of a bitboard confined to `CELLMASK` addresses a real cell. -/
lemma bit_in_cells {b j : Nat} (hb : b &&& CELLMASK = b)
    (h : b.testBit j = true) : j % 7 < 6 ∧ j < 49 := by
  have h2 : (b &&& CELLMASK).testBit j = true := by rw [hb]; exact h
  rw [Nat.testBit_land, Bool.and_eq_true] at h2
  exact cellmask_testBit h2.2

/-- Bit-level reading of `has_winner`: some bit index carries a whole
shift-collapsed window in one of the four directions. -/
lemma has_winner_true_iff (b : Nat) :
    has_winner b = true ↔ ∃ i,
      (b.testBit i = true ∧ b.testBit (6+i) = true ∧
        b.testBit (12+i) = true ∧ b.testBit (18+i) = true) ∨
      (b.testBit i = true ∧ b.testBit (7+i) = true ∧
        b.testBit (14+i) = true ∧ b.testBit (21+i) = true) ∨
      (b.testBit i = true ∧ b.testBit (8+i) = true ∧
        b.testBit (16+i) = true ∧ b.testBit (24+i) = true) ∨
      (b.testBit i = true ∧ b.testBit (1+i) = true ∧
        b.testBit (2+i) = true ∧ b.testBit (3+i) = true) := by
  have e6 : (2 * 6 : Nat) = 12 := by norm_num
  have e7 : (2 * 7 : Nat) = 14 := by norm_num
  have e8 : (2 * 8 : Nat) = 16 := by norm_num
  have a6 : ∀ i : Nat, 6 + (12 + i) = 18 + i := fun i => by ring
  have a7 : ∀ i : Nat, 7 + (14 + i) = 21 + i := fun i => by ring
  have a8 : ∀ i : Nat, 8 + (16 + i) = 24 + i := fun i => by ring
  have a1 : ∀ i : Nat, 1 + (2 + i) = 3 + i := fun i => by ring
  unfold has_winner
  rw [bne_iff_ne, ne_zero_iff_testBit]
  simp only [e6, e7, e8, Nat.testBit_lor, Nat.testBit_land,
    Nat.testBit_shiftRight, Bool.or_eq_true, Bool.and_eq_true, a6, a7, a8, a1,
    and_assoc, or_assoc]

/-- Existential reading of `hasFour`. -/
lemma hasFour_true_iff (b : Nat) :
    hasFour b = true ↔
      (∃ c, c < 4 ∧ ∃ r, r < 6 ∧ cellBit b c r = true ∧
        cellBit b (c+1) r = true ∧ cellBit b (c+2) r = true ∧
        cellBit b (c+3) r = true) ∨
      (∃ c, c < 7 ∧ ∃ r, r < 3 ∧ cellBit b c r = true ∧
        cellBit b c (r+1) = true ∧ cellBit b c (r+2) = true ∧
        cellBit b c (r+3) = true) ∨
      (∃ c, c < 4 ∧ ∃ r, r < 3 ∧ cellBit b c r = true ∧
        cellBit b (c+1) (r+1) = true ∧ cellBit b (c+2) (r+2) = true ∧
        cellBit b (c+3) (r+3) = true) ∨
      (∃ c, c < 4 ∧ ∃ r, r < 3 ∧ cellBit b c (r+3) = true ∧
        cellBit b (c+1) (r+2) = true ∧ cellBit b (c+2) (r+1) = true ∧
        cellBit b (c+3) r = true) := by
  simp only [hasFour, List.any_eq_true, List.mem_range, Bool.or_eq_true,
    Bool.and_eq_true, and_assoc, or_assoc]

/-- On a bitboard confined to the 42 playable cells, the shift-and-AND
detector of `src/game.rs` agrees exactly with brute-force window
enumeration. -/
lemma has_winner_eq_hasFour {b : Nat} (hb : b &&& CELLMASK = b) :
    has_winner b = true ↔ hasFour b = true := by
  rw [has_winner_true_iff, hasFour_true_iff]
  constructor
  · rintro ⟨i, hd1 | hh | hd2 | hv⟩
    · -- step 6: descending diagonal
      obtain ⟨p0, p6, p12, p18⟩ := hd1
      obtain ⟨m0, l0⟩ := bit_in_cells hb p0
      obtain ⟨m6, l6⟩ := bit_in_cells hb p6
      obtain ⟨m12, l12⟩ := bit_in_cells hb p12
      obtain ⟨m18, l18⟩ := bit_in_cells hb p18
      refine Or.inr (Or.inr (Or.inr
        ⟨i / 7, by omega, i % 7 - 3, by omega, ?_, ?_, ?_, ?_⟩))
      · have e : 7 * (i / 7) + (i % 7 - 3 + 3) = i := by omega
        rw [cellBit, e]; exact p0
      · have e : 7 * (i / 7 + 1) + (i % 7 - 3 + 2) = 6 + i := by omega
        rw [cellBit, e]; exact p6
      · have e : 7 * (i / 7 + 2) + (i % 7 - 3 + 1) = 12 + i := by omega
        rw [cellBit, e]; exact p12
      · have e : 7 * (i / 7 + 3) + (i % 7 - 3) = 18 + i := by omega
        rw [cellBit, e]; exact p18
    · -- step 7: horizontal
      obtain ⟨p0, p7, p14, p21⟩ := hh
      obtain ⟨m0, l0⟩ := bit_in_cells hb p0
      obtain ⟨m21, l21⟩ := bit_in_cells hb p21
      refine Or.inl ⟨i / 7, by omega, i % 7, by omega, ?_, ?_, ?_, ?_⟩
      · have e : 7 * (i / 7) + i % 7 = i := by omega
        rw [cellBit, e]; exact p0
      · have e : 7 * (i / 7 + 1) + i % 7 = 7 + i := by omega
        rw [cellBit, e]; exact p7
      · have e : 7 * (i / 7 + 2) + i % 7 = 14 + i := by omega
        rw [cellBit, e]; exact p14
      · have e : 7 * (i / 7 + 3) + i % 7 = 21 + i := by omega
        rw [cellBit, e]; exact p21
    · -- step 8: ascending diagonal
      obtain ⟨p0, p8, p16, p24⟩ := hd2
      obtain ⟨m0, l0⟩ := bit_in_cells hb p0
      obtain ⟨m8, l8⟩ := bit_in_cells hb p8
      obtain ⟨m16, l16⟩ := bit_in_cells hb p16
      obtain ⟨m24, l24⟩ := bit_in_cells hb p24
      refine Or.inr (Or.inr (Or.inl
        ⟨i / 7, by omega, i % 7, by omega, ?_, ?_, ?_, ?_⟩))
      · have e : 7 * (i / 7) + i % 7 = i := by omega
        rw [cellBit, e]; exact p0
      · have e : 7 * (i / 7 + 1) + (i % 7 + 1) = 8 + i := by omega
        rw [cellBit, e]; exact p8
      · have e : 7 * (i / 7 + 2) + (i % 7 + 2) = 16 + i := by omega
        rw [cellBit, e]; exact p16
      · have e : 7 * (i / 7 + 3) + (i % 7 + 3) = 24 + i := by omega
        rw [cellBit, e]; exact p24
    · -- step 1: vertical
      obtain ⟨p0, p1, p2, p3⟩ := hv
      obtain ⟨m0, l0⟩ := bit_in_cells hb p0
      obtain ⟨m1, l1⟩ := bit_in_cells hb p1
      obtain ⟨m2, l2⟩ := bit_in_cells hb p2
      obtain ⟨m3, l3⟩ := bit_in_cells hb p3
      refine Or.inr (Or.inl ⟨i / 7, by omega, i % 7, by omega, ?_, ?_, ?_, ?_⟩)
      · have e : 7 * (i / 7) + i % 7 = i := by omega
        rw [cellBit, e]; exact p0
      · have e : 7 * (i / 7) + (i % 7 + 1) = 1 + i := by omega
        rw [cellBit, e]; exact p1
      · have e : 7 * (i / 7) + (i % 7 + 2) = 2 + i := by omega
        rw [cellBit, e]; exact p2
      · have e : 7 * (i / 7) + (i % 7 + 3) = 3 + i := by omega
        rw [cellBit, e]; exact p3
  · rintro (⟨c, hc, r, hr, q0, q1, q2, q3⟩ | ⟨c, hc, r, hr, q0, q1, q2, q3⟩ |
      ⟨c, hc, r, hr, q0, q1, q2, q3⟩ | ⟨c, hc, r, hr, q0, q1, q2, q3⟩)
    · -- horizontal window at (c, r)
      refine ⟨7 * c + r, Or.inr (Or.inl ⟨?_, ?_, ?_, ?_⟩)⟩
      · exact q0
      · have e : 7 * (c + 1) + r = 7 + (7 * c + r) := by ring
        rw [cellBit, e] at q1; exact q1
      · have e : 7 * (c + 2) + r = 14 + (7 * c + r) := by ring
        rw [cellBit, e] at q2; exact q2
      · have e : 7 * (c + 3) + r = 21 + (7 * c + r) := by ring
        rw [cellBit, e] at q3; exact q3
    · -- vertical window at (c, r)
      refine ⟨7 * c + r, Or.inr (Or.inr (Or.inr ⟨?_, ?_, ?_, ?_⟩))⟩
      · exact q0
      · have e : 7 * c + (r + 1) = 1 + (7 * c + r) := by ring
        rw [cellBit, e] at q1; exact q1
      · have e : 7 * c + (r + 2) = 2 + (7 * c + r) := by ring
        rw [cellBit, e] at q2; exact q2
      · have e : 7 * c + (r + 3) = 3 + (7 * c + r) := by ring
        rw [cellBit, e] at q3; exact q3
    · -- ascending diagonal window at (c, r)
      refine ⟨7 * c + r, Or.inr (Or.inr (Or.inl ⟨?_, ?_, ?_, ?_⟩))⟩
      · exact q0
      · have e : 7 * (c + 1) + (r + 1) = 8 + (7 * c + r) := by ring
        rw [cellBit, e] at q1; exact q1
      · have e : 7 * (c + 2) + (r + 2) = 16 + (7 * c + r) := by ring
        rw [cellBit, e] at q2; exact q2
      · have e : 7 * (c + 3) + (r + 3) = 24 + (7 * c + r) := by ring
        rw [cellBit, e] at q3; exact q3
    · -- descending diagonal window at (c, r): lowest bit index is the top-left
      refine ⟨7 * c + (r + 3), Or.inl ⟨?_, ?_, ?_, ?_⟩⟩
      · exact q0
      · have e : 7 * (c + 1) + (r + 2) = 6 + (7 * c + (r + 3)) := by ring
        rw [cellBit, e] at q1; exact q1
      · have e : 7 * (c + 2) + (r + 1) = 12 + (7 * c + (r + 3)) := by ring
        rw [cellBit, e] at q2; exact q2
      · have e : 7 * (c + 3) + r = 18 + (7 * c + (r + 3)) := by ring
        rw [cellBit, e] at q3; exact q3

/-! ### Apply/undo inverse (claims C2, C3) -/

lemma heights_split {l : List Nat} (h : l.length = 7) :
    ∃ a0 a1 a2 a3 a4 a5 a6, l = [a0, a1, a2, a3, a4, a5, a6] := by
  rcases l with _ | ⟨a0, l⟩
  · simp at h
  rcases l with _ | ⟨a1, l⟩
  · simp at h
  rcases l with _ | ⟨a2, l⟩
  · simp at h
  rcases l with _ | ⟨a3, l⟩
  · simp at h
  rcases l with _ | ⟨a4, l⟩
  · simp at h
  rcases l with _ | ⟨a5, l⟩
  · simp at h
  rcases l with _ | ⟨a6, l⟩
  · simp at h
  rcases l with _ | ⟨a7, l⟩
  · exact ⟨a0, a1, a2, a3, a4, a5, a6, rfl⟩
  · simp at h

/-- Undoing a move made by `try_move` restores the exact previous board. -/
lemma pop_try_inverse {b : ConnectFourBoard} (column : Column)
    (hlen : b.heights.length = 7)
    (hs : status b = BoardStatus.OnGoing)
    (hp : is_playable b column = true) :
    pop_move (try_move b column).1 = b := by
  obtain ⟨q1, q2, mc, hts, hist⟩ := b
  obtain ⟨a0, a1, a2, a3, a4, a5, a6, rfl⟩ := heights_split hlen
  simp only [current_player] at *
  rcases hcp : Player.from_move_count mc with _ | _ <;> cases column <;>
    simp [try_move, pop_move, hs, hp, hcp, Column.to_index, Column.to_u8,
      Nat.add_sub_cancel, Nat.xor_cancel_right, current_player]

/-! ### Reachable boards and the structural invariant (claims C2, C6, C9, C10) -/

/-- Boards reachable from the starting board through the two public mutators
(`try_move`, which leaves the board unchanged on error, and `pop_move`). -/
inductive Reachable : ConnectFourBoard → Prop where
  | base : Reachable defaultBoard
  | play {b : ConnectFourBoard} (column : Column) :
      Reachable b → Reachable (try_move b column).1
  | undo {b : ConnectFourBoard} : Reachable b → Reachable (pop_move b)

/-- Boards reachable through successful moves only. -/
inductive Plays : ConnectFourBoard → Prop where
  | base : Plays defaultBoard
  | step {b : ConnectFourBoard} (column : Column) (h : Plays b)
      (hs : status b = BoardStatus.OnGoing)
      (hp : is_playable b column = true) : Plays (try_move b column).1

/-- Occupied-cell predicate of a board whose column heights are
`a0 .. a6`: bit `j` is occupied iff it lies strictly below the height of its
column. -/
def Rng (a0 a1 a2 a3 a4 a5 a6 j : Nat) : Prop :=
  j < a0 ∨ (7 ≤ j ∧ j < a1) ∨ (14 ≤ j ∧ j < a2) ∨ (21 ≤ j ∧ j < a3) ∨
    (28 ≤ j ∧ j < a4) ∨ (35 ≤ j ∧ j < a5) ∨ (42 ≤ j ∧ j < a6)

/-- Structural invariant of boards reachable through legal play: the seven
heights are inside their columns, the move counter counts the stones on the
board, the bitboards are disjoint, and the occupied bits are exactly the bits
below each column's height. -/
def Inv (b : ConnectFourBoard) : Prop :=
  ∃ a0 a1 a2 a3 a4 a5 a6,
    b.heights = [a0, a1, a2, a3, a4, a5, a6] ∧
    a0 ≤ 6 ∧ 7 ≤ a1 ∧ a1 ≤ 13 ∧ 14 ≤ a2 ∧ a2 ≤ 20 ∧ 21 ≤ a3 ∧ a3 ≤ 27 ∧
    28 ≤ a4 ∧ a4 ≤ 34 ∧ 35 ≤ a5 ∧ a5 ≤ 41 ∧ 42 ≤ a6 ∧ a6 ≤ 48 ∧
    b.move_count =
      a0 + (a1 - 7) + (a2 - 14) + (a3 - 21) + (a4 - 28) + (a5 - 35) +
        (a6 - 42) ∧
    b.player_one_bitboard &&& b.player_two_bitboard = 0 ∧
    ∀ j, (b.player_one_bitboard ||| b.player_two_bitboard).testBit j = true ↔
      Rng a0 a1 a2 a3 a4 a5 a6 j

lemma land_eq_zero_iff {p q : Nat} :
    p &&& q = 0 ↔ ∀ j, p.testBit j = false ∨ q.testBit j = false := by
  constructor
  · intro h j
    have ht : (p &&& q).testBit j = false := by rw [h, Nat.zero_testBit]
    rw [Nat.testBit_land] at ht
    cases hp : p.testBit j
    · exact Or.inl rfl
    · right
      rw [hp, Bool.true_and] at ht
      exact ht
  · intro h
    refine Nat.eq_of_testBit_eq fun j => ?_
    rw [Nat.testBit_land, Nat.zero_testBit]
    rcases h j with h1 | h1 <;> simp [h1]

/-- Dropping a stone on a vacant cell: effect on disjointness and on the
occupied-cell predicate, stated for the stone landing in either bitboard. -/
lemma board_bits_update {p q h : Nat} {R : Nat → Prop}
    (hdisj : p &&& q = 0)
    (hocc : ∀ j, (p ||| q).testBit j = true ↔ R j)
    (hfresh : ¬ R h) :
    ((p ^^^ 1 <<< h) &&& q = 0 ∧
      (∀ j, ((p ^^^ 1 <<< h) ||| q).testBit j = true ↔ (R j ∨ j = h))) ∧
    ((q &&& (p ^^^ 1 <<< h) = 0) ∧
      (∀ j, (q ||| (p ^^^ 1 <<< h)).testBit j = true ↔ (R j ∨ j = h))) := by
  rw [Nat.one_shiftLeft]
  have hph : (p ||| q).testBit h = false := by
    cases hb : (p ||| q).testBit h
    · rfl
    · exact absurd ((hocc h).mp hb) hfresh
  rw [Nat.testBit_lor] at hph
  obtain ⟨hp, hq⟩ := Bool.or_eq_false_iff.mp hph
  have hd : (p ^^^ 2 ^ h) &&& q = 0 := by
    rw [land_eq_zero_iff] at hdisj ⊢
    intro j
    by_cases hj : j = h
    · subst hj
      exact Or.inr hq
    · rcases hdisj j with h1 | h1
      · left
        rw [Nat.testBit_xor, h1, Nat.testBit_two_pow_of_ne (Ne.symm hj)]
        rfl
      · exact Or.inr h1
  have ho : ∀ j, ((p ^^^ 2 ^ h) ||| q).testBit j = true ↔ (R j ∨ j = h) := by
    intro j
    by_cases hj : j = h
    · subst hj
      rw [Nat.testBit_lor, Nat.testBit_xor, Nat.testBit_two_pow_self, hp, hq]
      simp
    · rw [Nat.testBit_lor, Nat.testBit_xor,
        Nat.testBit_two_pow_of_ne (Ne.symm hj), Bool.xor_false,
        ← Nat.testBit_lor, hocc j]
      simp [hj]
  refine ⟨⟨hd, ho⟩, ⟨by rw [Nat.land_comm]; exact hd, fun j => ?_⟩⟩
  rw [Nat.lor_comm]
  exact ho j

/-- A successful `try_move` by player One, written as a record update. -/
lemma try_move_one {b : ConnectFourBoard} {column : Column}
    (hs : status b = BoardStatus.OnGoing) (hp : is_playable b column = true)
    (hcp : current_player b = Player.One) :
    try_move b column =
      ({ b with
          player_one_bitboard :=
            b.player_one_bitboard ^^^ (1 <<< b.heights.getD column.to_index 0)
          move_count := b.move_count + 1
          heights :=
            b.heights.set column.to_index
              (b.heights.getD column.to_index 0 + 1)
          history := column :: b.history },
        Except.ok (1 <<< b.heights.getD column.to_index 0)) := by
  simp [try_move, hs, hp, hcp]

/-- A successful `try_move` by player Two, written as a record update. -/
lemma try_move_two {b : ConnectFourBoard} {column : Column}
    (hs : status b = BoardStatus.OnGoing) (hp : is_playable b column = true)
    (hcp : current_player b = Player.Two) :
    try_move b column =
      ({ b with
          player_two_bitboard :=
            b.player_two_bitboard ^^^ (1 <<< b.heights.getD column.to_index 0)
          move_count := b.move_count + 1
          heights :=
            b.heights.set column.to_index
              (b.heights.getD column.to_index 0 + 1)
          history := column :: b.history },
        Except.ok (1 <<< b.heights.getD column.to_index 0)) := by
  simp [try_move, hs, hp, hcp]

/-- Every board reachable through legal play satisfies the structural
invariant. -/
lemma plays_inv {b : ConnectFourBoard} (h : Plays b) : Inv b := by
  induction h with
  | base =>
      refine ⟨0, 7, 14, 21, 28, 35, 42, rfl, by omega, by omega, by omega,
        by omega, by omega, by omega, by omega, by omega, by omega, by omega,
        by omega, by omega, by omega, rfl, rfl, fun j => ?_⟩
      constructor
      · intro hj
        have h0 : (0 : Nat).testBit j = true := hj
        simp at h0
      · intro hj
        exfalso
        unfold Rng at hj
        omega
  | @step b column hbp hs hp ih =>
      obtain ⟨p1, p2, mc, hts, hist⟩ := b
      obtain ⟨a0, a1, a2, a3, a4, a5, a6, hh, c0, c1l, c1u, c2l, c2u, c3l,
        c3u, c4l, c4u, c5l, c5u, c6l, c6u, hmc, hdisj, hocc⟩ := ih
      dsimp only at hh hmc hdisj hocc
      subst hh
      rcases hcp : current_player
          ⟨p1, p2, mc, [a0, a1, a2, a3, a4, a5, a6], hist⟩ with _ | _
      · rw [try_move_one hs hp hcp]
        unfold Inv
        dsimp only
        cases column
        · have hcap : a0 < 6 := by
            simpa [is_playable, Column.to_index, Column.to_u8, TOP] using hp
          have hfr : ¬ Rng a0 a1 a2 a3 a4 a5 a6 a0 := by unfold Rng; omega
          obtain ⟨⟨hd1, ho1⟩, -⟩ := board_bits_update hdisj hocc hfr
          refine ⟨a0 + 1, a1, a2, a3, a4, a5, a6, rfl, by omega, by omega,
            by omega, by omega, by omega, by omega, by omega, by omega,
            by omega, by omega, by omega, by omega, by omega, by omega, hd1,
            fun j => ?_⟩
          exact (ho1 j).trans (by unfold Rng; omega)
        · have hcap : a1 < 13 := by
            simpa [is_playable, Column.to_index, Column.to_u8, TOP] using hp
          have hfr : ¬ Rng a0 a1 a2 a3 a4 a5 a6 a1 := by unfold Rng; omega
          obtain ⟨⟨hd1, ho1⟩, -⟩ := board_bits_update hdisj hocc hfr
          refine ⟨a0, a1 + 1, a2, a3, a4, a5, a6, rfl, by omega, by omega,
            by omega, by omega, by omega, by omega, by omega, by omega,
            by omega, by omega, by omega, by omega, by omega, by omega, hd1,
            fun j => ?_⟩
          exact (ho1 j).trans (by unfold Rng; omega)
        · have hcap : a2 < 20 := by
            simpa [is_playable, Column.to_index, Column.to_u8, TOP] using hp
          have hfr : ¬ Rng a0 a1 a2 a3 a4 a5 a6 a2 := by unfold Rng; omega
          obtain ⟨⟨hd1, ho1⟩, -⟩ := board_bits_update hdisj hocc hfr
          refine ⟨a0, a1, a2 + 1, a3, a4, a5, a6, rfl, by omega, by omega,
            by omega, by omega, by omega, by omega, by omega, by omega,
            by omega, by omega, by omega, by omega, by omega, by omega, hd1,
            fun j => ?_⟩
          exact (ho1 j).trans (by unfold Rng; omega)
        · have hcap : a3 < 27 := by
            simpa [is_playable, Column.to_index, Column.to_u8, TOP] using hp
          have hfr : ¬ Rng a0 a1 a2 a3 a4 a5 a6 a3 := by unfold Rng; omega
          obtain ⟨⟨hd1, ho1⟩, -⟩ := board_bits_update hdisj hocc hfr
          refine ⟨a0, a1, a2, a3 + 1, a4, a5, a6, rfl, by omega, by omega,
            by omega, by omega, by omega, by omega, by omega, by omega,
            by omega, by omega, by omega, by omega, by omega, by omega, hd1,
            fun j => ?_⟩
          exact (ho1 j).trans (by unfold Rng; omega)
        · have hcap : a4 < 34 := by
            simpa [is_playable, Column.to_index, Column.to_u8, TOP] using hp
          have hfr : ¬ Rng a0 a1 a2 a3 a4 a5 a6 a4 := by unfold Rng; omega
          obtain ⟨⟨hd1, ho1⟩, -⟩ := board_bits_update hdisj hocc hfr
          refine ⟨a0, a1, a2, a3, a4 + 1, a5, a6, rfl, by omega, by omega,
            by omega, by omega, by omega, by omega, by omega, by omega,
            by omega, by omega, by omega, by omega, by omega, by omega, hd1,
            fun j => ?_⟩
          exact (ho1 j).trans (by unfold Rng; omega)
        · have hcap : a5 < 41 := by
            simpa [is_playable, Column.to_index, Column.to_u8, TOP] using hp
          have hfr : ¬ Rng a0 a1 a2 a3 a4 a5 a6 a5 := by unfold Rng; omega
          obtain ⟨⟨hd1, ho1⟩, -⟩ := board_bits_update hdisj hocc hfr
          refine ⟨a0, a1, a2, a3, a4, a5 + 1, a6, rfl, by omega, by omega,
            by omega, by omega, by omega, by omega, by omega, by omega,
            by omega, by omega, by omega, by omega, by omega, by omega, hd1,
            fun j => ?_⟩
          exact (ho1 j).trans (by unfold Rng; omega)
        · have hcap : a6 < 48 := by
            simpa [is_playable, Column.to_index, Column.to_u8, TOP] using hp
          have hfr : ¬ Rng a0 a1 a2 a3 a4 a5 a6 a6 := by unfold Rng; omega
          obtain ⟨⟨hd1, ho1⟩, -⟩ := board_bits_update hdisj hocc hfr
          refine ⟨a0, a1, a2, a3, a4, a5, a6 + 1, rfl, by omega, by omega,
            by omega, by omega, by omega, by omega, by omega, by omega,
            by omega, by omega, by omega, by omega, by omega, by omega, hd1,
            fun j => ?_⟩
          exact (ho1 j).trans (by unfold Rng; omega)
      · have hdisj2 : p2 &&& p1 = 0 := by rw [Nat.land_comm]; exact hdisj
        have hocc2 : ∀ j, (p2 ||| p1).testBit j = true ↔
            Rng a0 a1 a2 a3 a4 a5 a6 j := fun j => by
          rw [Nat.lor_comm]
          exact hocc j
        rw [try_move_two hs hp hcp]
        unfold Inv
        dsimp only
        cases column
        · have hcap : a0 < 6 := by
            simpa [is_playable, Column.to_index, Column.to_u8, TOP] using hp
          have hfr : ¬ Rng a0 a1 a2 a3 a4 a5 a6 a0 := by unfold Rng; omega
          obtain ⟨-, hd2, ho2⟩ := board_bits_update hdisj2 hocc2 hfr
          refine ⟨a0 + 1, a1, a2, a3, a4, a5, a6, rfl, by omega, by omega,
            by omega, by omega, by omega, by omega, by omega, by omega,
            by omega, by omega, by omega, by omega, by omega, by omega, hd2,
            fun j => ?_⟩
          exact (ho2 j).trans (by unfold Rng; omega)
        · have hcap : a1 < 13 := by
            simpa [is_playable, Column.to_index, Column.to_u8, TOP] using hp
          have hfr : ¬ Rng a0 a1 a2 a3 a4 a5 a6 a1 := by unfold Rng; omega
          obtain ⟨-, hd2, ho2⟩ := board_bits_update hdisj2 hocc2 hfr
          refine ⟨a0, a1 + 1, a2, a3, a4, a5, a6, rfl, by omega, by omega,
            by omega, by omega, by omega, by omega, by omega, by omega,
            by omega, by omega, by omega, by omega, by omega, by omega, hd2,
            fun j => ?_⟩
          exact (ho2 j).trans (by unfold Rng; omega)
        · have hcap : a2 < 20 := by
            simpa [is_playable, Column.to_index, Column.to_u8, TOP] using hp
          have hfr : ¬ Rng a0 a1 a2 a3 a4 a5 a6 a2 := by unfold Rng; omega
          obtain ⟨-, hd2, ho2⟩ := board_bits_update hdisj2 hocc2 hfr
          refine ⟨a0, a1, a2 + 1, a3, a4, a5, a6, rfl, by omega, by omega,
            by omega, by omega, by omega, by omega, by omega, by omega,
            by omega, by omega, by omega, by omega, by omega, by omega, hd2,
            fun j => ?_⟩
          exact (ho2 j).trans (by unfold Rng; omega)
        · have hcap : a3 < 27 := by
            simpa [is_playable, Column.to_index, Column.to_u8, TOP] using hp
          have hfr : ¬ Rng a0 a1 a2 a3 a4 a5 a6 a3 := by unfold Rng; omega
          obtain ⟨-, hd2, ho2⟩ := board_bits_update hdisj2 hocc2 hfr
          refine ⟨a0, a1, a2, a3 + 1, a4, a5, a6, rfl, by omega, by omega,
            by omega, by omega, by omega, by omega, by omega, by omega,
            by omega, by omega, by omega, by omega, by omega, by omega, hd2,
            fun j => ?_⟩
          exact (ho2 j).trans (by unfold Rng; omega)
        · have hcap : a4 < 34 := by
            simpa [is_playable, Column.to_index, Column.to_u8, TOP] using hp
          have hfr : ¬ Rng a0 a1 a2 a3 a4 a5 a6 a4 := by unfold Rng; omega
          obtain ⟨-, hd2, ho2⟩ := board_bits_update hdisj2 hocc2 hfr
          refine ⟨a0, a1, a2, a3, a4 + 1, a5, a6, rfl, by omega, by omega,
            by omega, by omega, by omega, by omega, by omega, by omega,
            by omega, by omega, by omega, by omega, by omega, by omega, hd2,
            fun j => ?_⟩
          exact (ho2 j).trans (by unfold Rng; omega)
        · have hcap : a5 < 41 := by
            simpa [is_playable, Column.to_index, Column.to_u8, TOP] using hp
          have hfr : ¬ Rng a0 a1 a2 a3 a4 a5 a6 a5 := by unfold Rng; omega
          obtain ⟨-, hd2, ho2⟩ := board_bits_update hdisj2 hocc2 hfr
          refine ⟨a0, a1, a2, a3, a4, a5 + 1, a6, rfl, by omega, by omega,
            by omega, by omega, by omega, by omega, by omega, by omega,
            by omega, by omega, by omega, by omega, by omega, by omega, hd2,
            fun j => ?_⟩
          exact (ho2 j).trans (by unfold Rng; omega)
        · have hcap : a6 < 48 := by
            simpa [is_playable, Column.to_index, Column.to_u8, TOP] using hp
          have hfr : ¬ Rng a0 a1 a2 a3 a4 a5 a6 a6 := by unfold Rng; omega
          obtain ⟨-, hd2, ho2⟩ := board_bits_update hdisj2 hocc2 hfr
          refine ⟨a0, a1, a2, a3, a4, a5, a6 + 1, rfl, by omega, by omega,
            by omega, by omega, by omega, by omega, by omega, by omega,
            by omega, by omega, by omega, by omega, by omega, by omega, hd2,
            fun j => ?_⟩
          exact (ho2 j).trans (by unfold Rng; omega)

lemma plays_heights_length {b : ConnectFourBoard} (h : Plays b) :
    b.heights.length = 7 := by
  obtain ⟨a0, a1, a2, a3, a4, a5, a6, hh, -⟩ := plays_inv h
  rw [hh]
  rfl

lemma try_move_concluded {b : ConnectFourBoard} {column : Column}
    (hs : status b ≠ BoardStatus.OnGoing) :
    try_move b column = (b, Except.error MoveError.ConcludedGame) := by
  simp [try_move, hs]

lemma try_move_fullcol {b : ConnectFourBoard} {column : Column}
    (hs : status b = BoardStatus.OnGoing)
    (hp : is_playable b column = false) :
    try_move b column = (b, Except.error MoveError.FullColumn) := by
  simp [try_move, hs, hp]

/-- Undo preserves reachability-through-legal-play: `pop_move` exactly
reverts the most recent successful `try_move` (and is a no-op on the starting
board). -/
lemma plays_pop {b : ConnectFourBoard} (h : Plays b) : Plays (pop_move b) := by
  cases h with
  | base => exact Plays.base
  | step column hbp hs hp =>
      rw [pop_try_inverse column (plays_heights_length hbp) hs hp]
      exact hbp

/-- Every board reachable through the public mutators is reachable through
successful moves only. -/
lemma reachable_plays {b : ConnectFourBoard} (h : Reachable b) : Plays b := by
  induction h with
  | base => exact Plays.base
  | @play b column hr ih =>
      by_cases hs : status b = BoardStatus.OnGoing
      · by_cases hp : is_playable b column = true
        · exact Plays.step column ih hs hp
        · rw [try_move_fullcol hs (by simpa using hp)]
          exact ih
      · rw [try_move_concluded hs]
        exact ih
  | @undo b hr ih => exact plays_pop ih

lemma reachable_inv {b : ConnectFourBoard} (h : Reachable b) : Inv b :=
  plays_inv (reachable_plays h)

/-! ### Search engine (`src/ai.rs`) -/

/-- Model of `i32::MAX`. -/
def i32Max : Int := 2147483647

/-- Model of `i32::MIN`. -/
def i32Min : Int := -2147483648

/-- Rust `u64 as i32`: truncate to the low 32 bits and reinterpret them in
two's complement. -/
def toI32 (n : Nat) : Int :=
  if n % 2 ^ 32 < 2 ^ 31 then ((n % 2 ^ 32 : Nat) : Int)
  else ((n % 2 ^ 32 : Nat) : Int) - 2 ^ 32

/-- Model of `evalulate_board` from `src/ai.rs` (name as in the source): extreme
scores for won boards, zero for a draw, and the placeholder
`(p1 | p2) as i32` for ongoing boards. -/
def evalulate_board (board : ConnectFourBoard) : Int :=
  match status board with
  | BoardStatus.Winner Player.One => i32Max
  | BoardStatus.Winner Player.Two => i32Min
  | BoardStatus.Draw => 0
  | BoardStatus.OnGoing =>
      toI32 (board.player_one_bitboard ||| board.player_two_bitboard)

/-- Model of `possible_boards` from `src/ai.rs`: each playable column paired with the
board produced by playing it on a clone of the input board (the input board
itself is not touched). -/
def possible_boards (board : ConnectFourBoard) :
    List (Column × ConnectFourBoard) :=
  Column.all.filterMap fun column =>
    let next := try_move board column
    match next.2 with
    | Except.ok _ => some (column, next.1)
    | Except.error _ => none

/-- Model of one draw of `possible_boards.choose(&mut rand::rng())`: a
deterministic selection function standing for the random generator.  The
Rust `choose` returns `None` exactly on the empty slice. -/
abbrev Pick : Type :=
  List (Column × ConnectFourBoard) → Option (Column × ConnectFourBoard)

/-- The `maximizing_player` branch loop of `minimax`, with `recur` standing
for the recursive call at `depth - 1`.  The Rust `break` is the early return
taken when `beta <= alpha` after `alpha` has been raised. -/
def maxLoop (recur : ConnectFourBoard → Int → Int → Int) :
    List (Column × ConnectFourBoard) → Int → Int → Column → Int →
      Option Column × Int
  | [], _, _, best_column, max_eval => (some best_column, max_eval)
  | (column, possible) :: rest, alpha, beta, best_column, max_eval =>
      let eval := recur possible alpha beta
      let best' := if eval > max_eval then column else best_column
      let max' := if eval > max_eval then eval else max_eval
      let alpha' := max alpha eval
      if beta ≤ alpha' then (some best', max')
      else maxLoop recur rest alpha' beta best' max'

/-- The minimizing branch loop of `minimax`. -/
def minLoop (recur : ConnectFourBoard → Int → Int → Int) :
    List (Column × ConnectFourBoard) → Int → Int → Column → Int →
      Option Column × Int
  | [], _, _, best_column, min_eval => (some best_column, min_eval)
  | (column, possible) :: rest, alpha, beta, best_column, min_eval =>
      let eval := recur possible alpha beta
      let best' := if eval < min_eval then column else best_column
      let min' := if eval < min_eval then eval else min_eval
      let beta' := min beta eval
      if beta' ≤ alpha then (some best', min')
      else minLoop recur rest alpha beta' best' min'

/-- Model of `minimax` from `src/ai.rs`.  `Option.getD Column.One` models the
`unwrap()` of the random initial column: on an empty move list the Rust code
panics, which no theorem below relies on (reachable ongoing boards always
have a playable column). -/
def minimax (pick : Pick) :
    Nat → ConnectFourBoard → Int → Int → Bool → Option Column × Int
  | 0, board, _, _, _ => (none, evalulate_board board)
  | depth + 1, board, alpha, beta, maximizing_player =>
      if status board ≠ BoardStatus.OnGoing then
        (none, evalulate_board board)
      else
        let pbs := possible_boards board
        let best0 := ((pick pbs).map Prod.fst).getD Column.One
        if maximizing_player then
          maxLoop (fun pb a b2 => (minimax pick depth pb a b2 false).2) pbs
            alpha beta best0 i32Min
        else
          minLoop (fun pb a b2 => (minimax pick depth pb a b2 true).2) pbs
            alpha beta best0 i32Max

/-- Model of `next_move` from `src/ai.rs`. -/
def next_move (board : ConnectFourBoard) (depth : Nat) (pick : Pick) :
    Option Column :=
  match status board with
  | BoardStatus.OnGoing => (minimax pick depth board i32Min i32Max false).1
  | _ => none

/-- Loop of the unpruned reference search: `maxLoop` with the alpha-beta
bookkeeping and the early `break` removed. -/
def maxLoopNC (recur : ConnectFourBoard → Int) :
    List (Column × ConnectFourBoard) → Column → Int → Option Column × Int
  | [], best_column, max_eval => (some best_column, max_eval)
  | (column, possible) :: rest, best_column, max_eval =>
      let eval := recur possible
      let best' := if eval > max_eval then column else best_column
      let max' := if eval > max_eval then eval else max_eval
      maxLoopNC recur rest best' max'

/-- Loop of the unpruned reference search, minimizing branch. -/
def minLoopNC (recur : ConnectFourBoard → Int) :
    List (Column × ConnectFourBoard) → Column → Int → Option Column × Int
  | [], best_column, min_eval => (some best_column, min_eval)
  | (column, possible) :: rest, best_column, min_eval =>
      let eval := recur possible
      let best' := if eval < min_eval then column else best_column
      let min' := if eval < min_eval then eval else min_eval
      minLoopNC recur rest best' min'

/-- Unpruned minimax at the same depth with the same evaluator and the same
tie-break draws: the specification's reference point for claim C8. -/
def minimax_nc (pick : Pick) :
    Nat → ConnectFourBoard → Bool → Option Column × Int
  | 0, board, _ => (none, evalulate_board board)
  | depth + 1, board, maximizing_player =>
      if status board ≠ BoardStatus.OnGoing then
        (none, evalulate_board board)
      else
        let pbs := possible_boards board
        let best0 := ((pick pbs).map Prod.fst).getD Column.One
        if maximizing_player then
          maxLoopNC (fun pb => (minimax_nc pick depth pb false).2) pbs best0
            i32Min
        else
          minLoopNC (fun pb => (minimax_nc pick depth pb true).2) pbs best0
            i32Max

/-- Model of `next_move` driven by the unpruned search. -/
def next_move_nc (board : ConnectFourBoard) (depth : Nat) (pick : Pick) :
    Option Column :=
  match status board with
  | BoardStatus.OnGoing => (minimax_nc pick depth board false).1
  | _ => none

/-- State-threaded variant of `minimax` making the Rust borrow discipline
explicit: the caller's board travels with the computation and is handed back
at every return site; each recursive call receives one of the clones built
by `possible_boards`, and the clone's final state is dropped exactly as Rust
drops it. -/
def minimax_st (pick : Pick) :
    Nat → ConnectFourBoard → Int → Int → Bool →
      ConnectFourBoard × (Option Column × Int)
  | 0, board, _, _, _ => (board, (none, evalulate_board board))
  | depth + 1, board, alpha, beta, maximizing_player =>
      if status board ≠ BoardStatus.OnGoing then
        (board, (none, evalulate_board board))
      else
        let pbs := possible_boards board
        let best0 := ((pick pbs).map Prod.fst).getD Column.One
        if maximizing_player then
          (board,
            maxLoop (fun pb a b2 => ((minimax_st pick depth pb a b2 false).2).2)
              pbs alpha beta best0 i32Min)
        else
          (board,
            minLoop (fun pb a b2 => ((minimax_st pick depth pb a b2 true).2).2)
              pbs alpha beta best0 i32Max)

/-- State-threaded `next_move`: the board component of the result is the
caller's board after the call. -/
def next_move_st (board : ConnectFourBoard) (depth : Nat) (pick : Pick) :
    ConnectFourBoard × Option Column :=
  match status board with
  | BoardStatus.OnGoing =>
      let r := minimax_st pick depth board i32Min i32Max false
      (r.1, r.2.1)
  | _ => (board, none)

/-- The two concrete tie-break draws used below: always the first,
respectively always the last, playable move. -/
def pickHead : Pick := fun l => l.head?

/-- Tie-break draw choosing the last playable move. -/
def pickLast : Pick := fun l => l.getLast?

/-! ### Specification-side evaluator (for claim C5) -/

/-- The four-cell windows of the 6x7 grid as (column, row) pairs.  This
follows the specification's description of the Evaluator ("the number of
distinct four-in-a-row lines passing through that cell") and exists only to
be compared with the implemented `evalulate_board`. -/
def spec_windows : List (List (Nat × Nat)) :=
  ((List.range 4).flatMap fun c => (List.range 6).map fun r =>
      [(c, r), (c+1, r), (c+2, r), (c+3, r)]) ++
  ((List.range 7).flatMap fun c => (List.range 3).map fun r =>
      [(c, r), (c, r+1), (c, r+2), (c, r+3)]) ++
  ((List.range 4).flatMap fun c => (List.range 3).map fun r =>
      [(c, r), (c+1, r+1), (c+2, r+2), (c+3, r+3)]) ++
  ((List.range 4).flatMap fun c => (List.range 3).map fun r =>
      [(c, r+3), (c+1, r+2), (c+2, r+1), (c+3, r)])

/-- Number of four-in-a-row windows through cell `(c, r)`. -/
def spec_weight (c r : Nat) : Nat :=
  (spec_windows.filter fun w => (c, r) ∈ w).length

/-- The specification's weighted-sum evaluation of a non-terminal board:
the sum over all 42 cells of the cell weight, signed by the occupying
player. -/
def spec_score (board : ConnectFourBoard) : Int :=
  ((List.range 7).flatMap fun c => (List.range 6).map fun r => (c, r)).foldl
    (fun acc cell =>
      if cellBit board.player_one_bitboard cell.1 cell.2 then
        acc + (spec_weight cell.1 cell.2 : Int)
      else if cellBit board.player_two_bitboard cell.1 cell.2 then
        acc - (spec_weight cell.1 cell.2 : Int)
      else acc) 0

-- Scratch sanity checks: 69 windows in total, corner weight 3, centre
-- weight 13.
example : spec_windows.length = 69 := by decide
example : spec_weight 0 0 = 3 := by decide
example : spec_weight 3 2 = 13 := by decide

lemma top_bitboard_testBit {j : Nat} (h : TOP_BITBOARD.testBit j = true) :
    j % 7 = 6 ∧ j < 49 := by
  by_cases hj : j < 49
  · have hmod : ∀ j, j < 49 → TOP_BITBOARD.testBit j = true → j % 7 = 6 := by
      decide
    exact ⟨hmod j hj h, hj⟩
  · have hlt : TOP_BITBOARD < 2 ^ j := by
      calc TOP_BITBOARD < 2 ^ 49 := by decide
      _ ≤ 2 ^ j := Nat.pow_le_pow_right (by decide) (by omega)
    rw [Nat.testBit_lt_two_pow hlt] at h
    simp at h

/-- On a reachable board the cell a move would fill is vacant in both
bitboards. -/
lemma cell_at_height_vacant {b : ConnectFourBoard} (hr : Reachable b)
    {column : Column} (hp : is_playable b column = true) :
    (b.player_one_bitboard ||| b.player_two_bitboard).testBit
      (b.heights.getD column.to_index 0) = false := by
  obtain ⟨a0, a1, a2, a3, a4, a5, a6, hh, c0, c1l, c1u, c2l, c2u, c3l, c3u,
    c4l, c4u, c5l, c5u, c6l, c6u, hmc, hdisj, hocc⟩ := reachable_inv hr
  cases hb : (b.player_one_bitboard ||| b.player_two_bitboard).testBit
      (b.heights.getD column.to_index 0)
  · rfl
  · exfalso
    have hm := (hocc _).mp hb
    unfold Rng at hm
    cases column <;>
      simp [is_playable, hh, Column.to_index, Column.to_u8, TOP] at hp hm <;>
      omega

/-! ### Claim C1 -/

/-- C1 (counterexample): the bitboard with bits 49–52 set has no guard bit
(bits 6, 13, 20, 27, 34, 41, 48) set, yet `has_winner` reports a win while
no four-cell window inside the 6x7 grid is occupied — the claim's
hypothesis must also exclude bits above the board. -/
theorem c1_counterexample :
    (15 <<< 49) &&& TOP_BITBOARD = 0 ∧ has_winner (15 <<< 49) = true ∧
      hasFour (15 <<< 49) = false :=
  ⟨by decide, by decide, by decide⟩

/-- C1 (amended): for every bitboard whose set bits all lie inside the 42
playable cells — no guard bit and no bit at index 49 or above — `has_winner`
returns true iff four cells consecutive in a horizontal, vertical, or
diagonal line fully inside the 6x7 grid are all set; in particular it is
true for every canonical four-in-a-row inside the grid and false for any
3-in-a-row and for window patterns that would wrap across a column
boundary. -/
theorem c1_has_winner_exact {b : Nat} (hb : b &&& CELLMASK = b) :
    has_winner b = true ↔ hasFour b = true :=
  has_winner_eq_hasFour hb

/-- C1 witness: a vertical four in the first column. -/
theorem c1_witness :
    ((15 : Nat) &&& CELLMASK = 15) ∧
      (has_winner 15 = true ↔ hasFour 15 = true) :=
  ⟨by decide, c1_has_winner_exact (by decide)⟩

/-! ### Claim C2 -/

/-- C2: on every reachable ongoing board, applying a legal move with
`try_move` and undoing it with `pop_move` restores the two bitboards, the
seven heights, the move counter, the history — the whole board — and hence
the derived status. -/
theorem c2_try_then_pop_restores {b : ConnectFourBoard} (column : Column)
    (hr : Reachable b) (hs : status b = BoardStatus.OnGoing)
    (hp : is_playable b column = true) :
    pop_move (try_move b column).1 = b ∧
      status (pop_move (try_move b column).1) = status b := by
  have hlen : b.heights.length = 7 := plays_heights_length (reachable_plays hr)
  have h := pop_try_inverse column hlen hs hp
  exact ⟨h, by rw [h]⟩

/-- C2 witness: play and undo the first move of a game. -/
theorem c2_witness :
    pop_move (try_move defaultBoard Column.One).1 = defaultBoard ∧
      status (pop_move (try_move defaultBoard Column.One).1) =
        status defaultBoard :=
  c2_try_then_pop_restores Column.One Reachable.base rfl rfl

/-! ### Claim C3 -/

/-- C3 (counterexample): the successful `try_move` returns the one-hot bit
mask of the touched cell, not the absolute cell index itself: the first move
in the second column touches the cell with absolute index 7 but returns
`Ok(128)` (`1 << 7`), and `128 ≠ 7`. -/
theorem c3_counterexample :
    (try_move defaultBoard Column.Two).2 = Except.ok 128 ∧
      defaultBoard.heights.getD Column.Two.to_index 0 = 7 ∧
      (128 : Nat) ≠ 7 :=
  ⟨rfl, rfl, by decide⟩

/-- C3 (amended): on every reachable board, `try_move` fails with
`ConcludedGame` when the status is not ongoing (this check runs first) and
with `FullColumn` when the column is at capacity, leaving every field
unchanged in both cases; otherwise it sets the previously vacant bit of the
current player at the column's current height (by XOR), increments that
height, the move counter and the history, and returns `Ok` of the one-hot
bit mask `1 <<< cell index` of the touched cell (not the numeric index). -/
theorem c3_try_move_spec {b : ConnectFourBoard} (column : Column)
    (hr : Reachable b) :
    (status b ≠ BoardStatus.OnGoing →
      try_move b column = (b, Except.error MoveError.ConcludedGame)) ∧
    (status b = BoardStatus.OnGoing → is_playable b column = false →
      try_move b column = (b, Except.error MoveError.FullColumn)) ∧
    (status b = BoardStatus.OnGoing → is_playable b column = true →
      (try_move b column).2 =
          Except.ok (1 <<< b.heights.getD column.to_index 0) ∧
        (try_move b column).1.heights =
          b.heights.set column.to_index
            (b.heights.getD column.to_index 0 + 1) ∧
        (try_move b column).1.move_count = b.move_count + 1 ∧
        (try_move b column).1.history = column :: b.history ∧
        ((try_move b column).1.player_one_bitboard |||
            (try_move b column).1.player_two_bitboard).testBit
            (b.heights.getD column.to_index 0) = true ∧
        (current_player b = Player.One →
          (try_move b column).1.player_one_bitboard =
              b.player_one_bitboard ^^^
                1 <<< b.heights.getD column.to_index 0 ∧
            (try_move b column).1.player_two_bitboard =
              b.player_two_bitboard) ∧
        (current_player b = Player.Two →
          (try_move b column).1.player_two_bitboard =
              b.player_two_bitboard ^^^
                1 <<< b.heights.getD column.to_index 0 ∧
            (try_move b column).1.player_one_bitboard =
              b.player_one_bitboard)) := by
  refine ⟨fun hs => try_move_concluded hs, fun hs hp => try_move_fullcol hs hp,
    fun hs hp => ?_⟩
  have hvac := cell_at_height_vacant hr hp
  rw [Nat.testBit_lor, Bool.or_eq_false_iff] at hvac
  obtain ⟨hv1, hv2⟩ := hvac
  rcases hcp : current_player b with _ | _
  · rw [try_move_one hs hp hcp]
    refine ⟨rfl, rfl, rfl, rfl, ?_, fun _ => ⟨rfl, rfl⟩, fun h2 => ?_⟩
    · show ((b.player_one_bitboard ^^^
          1 <<< b.heights.getD column.to_index 0) |||
          b.player_two_bitboard).testBit (b.heights.getD column.to_index 0) =
          true
      rw [Nat.one_shiftLeft, Nat.testBit_lor, Nat.testBit_xor,
        Nat.testBit_two_pow_self, hv1, hv2]
      rfl
    · exact absurd h2 (by decide)
  · rw [try_move_two hs hp hcp]
    refine ⟨rfl, rfl, rfl, rfl, ?_, fun h2 => ?_, fun _ => ⟨rfl, rfl⟩⟩
    · show (b.player_one_bitboard |||
          (b.player_two_bitboard ^^^
            1 <<< b.heights.getD column.to_index 0)).testBit
          (b.heights.getD column.to_index 0) = true
      rw [Nat.one_shiftLeft, Nat.testBit_lor, Nat.testBit_xor,
        Nat.testBit_two_pow_self, hv1, hv2]
      rfl
    · exact absurd h2 (by decide)

/-- C3 witness: the three cases instantiated on the first move of a game. -/
theorem c3_witness :
    (status defaultBoard ≠ BoardStatus.OnGoing →
      try_move defaultBoard Column.One =
        (defaultBoard, Except.error MoveError.ConcludedGame)) ∧
    (status defaultBoard = BoardStatus.OnGoing →
      is_playable defaultBoard Column.One = false →
      try_move defaultBoard Column.One =
        (defaultBoard, Except.error MoveError.FullColumn)) ∧
    (status defaultBoard = BoardStatus.OnGoing →
      is_playable defaultBoard Column.One = true →
      (try_move defaultBoard Column.One).2 =
          Except.ok (1 <<< defaultBoard.heights.getD Column.One.to_index 0) ∧
        (try_move defaultBoard Column.One).1.heights =
          defaultBoard.heights.set Column.One.to_index
            (defaultBoard.heights.getD Column.One.to_index 0 + 1) ∧
        (try_move defaultBoard Column.One).1.move_count =
          defaultBoard.move_count + 1 ∧
        (try_move defaultBoard Column.One).1.history =
          Column.One :: defaultBoard.history ∧
        ((try_move defaultBoard Column.One).1.player_one_bitboard |||
            (try_move defaultBoard Column.One).1.player_two_bitboard).testBit
            (defaultBoard.heights.getD Column.One.to_index 0) = true ∧
        (current_player defaultBoard = Player.One →
          (try_move defaultBoard Column.One).1.player_one_bitboard =
              defaultBoard.player_one_bitboard ^^^
                1 <<< defaultBoard.heights.getD Column.One.to_index 0 ∧
            (try_move defaultBoard Column.One).1.player_two_bitboard =
              defaultBoard.player_two_bitboard) ∧
        (current_player defaultBoard = Player.Two →
          (try_move defaultBoard Column.One).1.player_two_bitboard =
              defaultBoard.player_two_bitboard ^^^
                1 <<< defaultBoard.heights.getD Column.One.to_index 0 ∧
            (try_move defaultBoard Column.One).1.player_one_bitboard =
              defaultBoard.player_one_bitboard)) :=
  c3_try_move_spec Column.One Reachable.base

/-! ### Claim C4 -/

/-- C4: `status` reports a win for player One first, then a win for player
Two, then the draw once the move counter reaches 42, else ongoing; because
the win checks precede the draw check, a full board holding a four-in-a-row
of player One is reported as a win, never as a draw. -/
theorem c4_status_spec {b : ConnectFourBoard} (hr : Reachable b) :
    (has_winner b.player_one_bitboard = true →
      status b = BoardStatus.Winner Player.One) ∧
    (has_winner b.player_one_bitboard = false →
      has_winner b.player_two_bitboard = true →
      status b = BoardStatus.Winner Player.Two) ∧
    (has_winner b.player_one_bitboard = false →
      has_winner b.player_two_bitboard = false → b.move_count = 42 →
      status b = BoardStatus.Draw) ∧
    (has_winner b.player_one_bitboard = false →
      has_winner b.player_two_bitboard = false → b.move_count ≠ 42 →
      status b = BoardStatus.OnGoing) ∧
    (b.move_count = 42 → has_winner b.player_one_bitboard = true →
      status b ≠ BoardStatus.Draw) := by
  unfold status
  refine ⟨fun h1 => by simp [h1], fun h1 h2 => by simp [h1, h2],
    fun h1 h2 h3 => by simp [h1, h2, h3],
    fun h1 h2 h3 => by simp [h1, h2, h3], fun h1 h2 => by simp [h2]⟩

/-- C4 witness: instantiated on the starting board. -/
theorem c4_witness :
    ((has_winner defaultBoard.player_one_bitboard = true →
      status defaultBoard = BoardStatus.Winner Player.One) ∧
    (has_winner defaultBoard.player_one_bitboard = false →
      has_winner defaultBoard.player_two_bitboard = true →
      status defaultBoard = BoardStatus.Winner Player.Two) ∧
    (has_winner defaultBoard.player_one_bitboard = false →
      has_winner defaultBoard.player_two_bitboard = false →
      defaultBoard.move_count = 42 → status defaultBoard = BoardStatus.Draw) ∧
    (has_winner defaultBoard.player_one_bitboard = false →
      has_winner defaultBoard.player_two_bitboard = false →
      defaultBoard.move_count ≠ 42 →
      status defaultBoard = BoardStatus.OnGoing) ∧
    (defaultBoard.move_count = 42 →
      has_winner defaultBoard.player_one_bitboard = true →
      status defaultBoard ≠ BoardStatus.Draw)) :=
  c4_status_spec Reachable.base

/-! ### Claim C5 -/

/-- C5 (counterexample): after One's first move in column one the board is
ongoing, the implemented evaluation returns `1` (the bitwise OR of the two
bitboards cast to `i32`), while the specified weighted line-count sum of the
position is `3` (three windows pass through the corner cell). -/
theorem c5_counterexample :
    status (try_move defaultBoard Column.One).1 = BoardStatus.OnGoing ∧
      evalulate_board (try_move defaultBoard Column.One).1 = 1 ∧
      spec_score (try_move defaultBoard Column.One).1 = 3 ∧ (1 : Int) ≠ 3 :=
  ⟨rfl, rfl, by decide, by decide⟩

/-- C5 (amended): the evaluation returns `i32::MAX = 2^31 - 1` when player
One has won, `i32::MIN = -2^31` when player Two has won (so the two
magnitudes differ by one), `0` for a draw, and for every ongoing board the
placeholder `(p1 | p2) as i32` — not the weighted line-count sum described
by the specification. -/
theorem c5_evalulate_board_spec (board : ConnectFourBoard) :
    evalulate_board board =
      match status board with
      | BoardStatus.Winner Player.One => (2 : Int) ^ 31 - 1
      | BoardStatus.Winner Player.Two => -((2 : Int) ^ 31)
      | BoardStatus.Draw => 0
      | BoardStatus.OnGoing =>
          toI32 (board.player_one_bitboard ||| board.player_two_bitboard) := by
  unfold evalulate_board i32Max i32Min
  rcases status board with p | _ | _
  · rcases p with _ | _ <;> norm_num
  · rfl
  · rfl

/-! ### Claim C10 -/

/-- C10: on every board reachable from the empty board by any sequence of
`try_move` and `pop_move` calls, the two players' bitboards share no set
bit, and neither contains a guard bit (bits 6, 13, 20, 27, 34, 41, 48) —
the invariant that keeps the unmasked shift-and-AND win detection sound. -/
theorem c10_invariants {b : ConnectFourBoard} (hr : Reachable b) :
    b.player_one_bitboard &&& b.player_two_bitboard = 0 ∧
      b.player_one_bitboard &&& TOP_BITBOARD = 0 ∧
      b.player_two_bitboard &&& TOP_BITBOARD = 0 := by
  obtain ⟨a0, a1, a2, a3, a4, a5, a6, hh, c0, c1l, c1u, c2l, c2u, c3l, c3u,
    c4l, c4u, c5l, c5u, c6l, c6u, hmc, hdisj, hocc⟩ := reachable_inv hr
  have guard : ∀ p : Nat,
      (∀ j, p.testBit j = true → Rng a0 a1 a2 a3 a4 a5 a6 j) →
      p &&& TOP_BITBOARD = 0 := by
    intro p hsub
    rw [land_eq_zero_iff]
    intro j
    cases hb : p.testBit j
    · exact Or.inl rfl
    · right
      cases ht : TOP_BITBOARD.testBit j
      · rfl
      · exfalso
        obtain ⟨hm, hl⟩ := top_bitboard_testBit ht
        have hj := hsub j hb
        unfold Rng at hj
        omega
  refine ⟨hdisj, guard _ fun j hj => (hocc j).mp ?_,
    guard _ fun j hj => (hocc j).mp ?_⟩
  · rw [Nat.testBit_lor, hj]
    rfl
  · rw [Nat.testBit_lor, hj]
    simp

/-- C10 witness: the invariant instantiated after one move. -/
theorem c10_witness :
    (try_move defaultBoard Column.One).1.player_one_bitboard &&&
        (try_move defaultBoard Column.One).1.player_two_bitboard = 0 ∧
      (try_move defaultBoard Column.One).1.player_one_bitboard &&&
        TOP_BITBOARD = 0 ∧
      (try_move defaultBoard Column.One).1.player_two_bitboard &&&
        TOP_BITBOARD = 0 :=
  c10_invariants (Reachable.play Column.One Reachable.base)

/-! ### Claims C6 and C7 -/

lemma status_ongoing_mc {b : ConnectFourBoard}
    (hs : status b = BoardStatus.OnGoing) : b.move_count ≠ 42 := by
  intro h42
  unfold status at hs
  rcases hw1 : has_winner b.player_one_bitboard <;>
    rcases hw2 : has_winner b.player_two_bitboard <;>
    simp [hw1, hw2, h42] at hs

/-- A successful move returns `Ok` of the touched bit. -/
lemma try_move_ok {b : ConnectFourBoard} {column : Column}
    (hs : status b = BoardStatus.OnGoing) (hp : is_playable b column = true) :
    (try_move b column).2 =
      Except.ok (1 <<< b.heights.getD column.to_index 0) := by
  rcases hcp : current_player b with _ | _
  · rw [try_move_one hs hp hcp]
  · rw [try_move_two hs hp hcp]

/-- A reachable ongoing board always has a playable column. -/
lemma possible_boards_ne_nil {b : ConnectFourBoard} (hr : Reachable b)
    (hs : status b = BoardStatus.OnGoing) : possible_boards b ≠ [] := by
  obtain ⟨a0, a1, a2, a3, a4, a5, a6, hh, c0, c1l, c1u, c2l, c2u, c3l, c3u,
    c4l, c4u, c5l, c5u, c6l, c6u, hmc, hdisj, hocc⟩ := reachable_inv hr
  have h42 := status_ongoing_mc hs
  have hcol : ∃ column : Column, is_playable b column = true := by
    by_contra hc
    push_neg at hc
    have e0 := hc Column.One
    have e1 := hc Column.Two
    have e2 := hc Column.Three
    have e3 := hc Column.Four
    have e4 := hc Column.Five
    have e5 := hc Column.Six
    have e6 := hc Column.Seven
    simp [is_playable, hh, Column.to_index, Column.to_u8, TOP] at e0 e1 e2 e3
    simp [is_playable, hh, Column.to_index, Column.to_u8, TOP] at e4 e5 e6
    omega
  obtain ⟨column, hp⟩ := hcol
  intro hnil
  unfold possible_boards at hnil
  have hf := List.filterMap_eq_nil.mp hnil column
    (by cases column <;> simp [Column.all])
  dsimp only at hf
  rw [try_move_ok hs hp] at hf
  simp at hf

/-- Both branches of `minLoop` return a column. -/
lemma minLoop_fst_some (recur : ConnectFourBoard → Int → Int → Int) :
    ∀ (l : List (Column × ConnectFourBoard)) (alpha beta : Int)
      (best : Column) (m : Int),
      ∃ c, (minLoop recur l alpha beta best m).1 = some c := by
  intro l
  induction l with
  | nil => exact fun alpha beta best m => ⟨best, rfl⟩
  | cons hd tl ih =>
      intro alpha beta best m
      obtain ⟨column, possible⟩ := hd
      unfold minLoop
      dsimp only
      by_cases hbr : min beta (recur possible alpha beta) ≤ alpha
      · rw [if_pos hbr]
        exact ⟨_, rfl⟩
      · rw [if_neg hbr]
        exact ih _ _ _ _

/-- C6 (counterexample): at depth 0 the search returns no column, so
`next_move` returns `None` on the starting board even though it is ongoing
and every column is playable. -/
theorem c6_counterexample :
    status defaultBoard = BoardStatus.OnGoing ∧
      is_playable defaultBoard Column.One = true ∧
      next_move defaultBoard 0 pickHead = none :=
  ⟨rfl, rfl, rfl⟩

/-- C6 (amended): for every reachable board and every depth at least 1,
`next_move` returns `None` iff the board is already terminal; a reachable
ongoing board always has a playable column (so `possible_boards` is
non-empty and the `unwrap` in `minimax` cannot panic) and some column is
returned. -/
theorem c6_next_move_none_iff {b : ConnectFourBoard} {depth : Nat}
    (hr : Reachable b) (hd : 1 ≤ depth) (pick : Pick) :
    (next_move b depth pick = none ↔ status b ≠ BoardStatus.OnGoing) ∧
      (status b = BoardStatus.OnGoing → possible_boards b ≠ []) := by
  obtain ⟨d, rfl⟩ : ∃ d, depth = d + 1 := ⟨depth - 1, by omega⟩
  rcases hst : status b with p | _ | _
  · simp [next_move, hst]
  · simp [next_move, hst]
  · have hne := possible_boards_ne_nil hr hst
    refine ⟨⟨fun h0 => ?_, fun hcon => absurd rfl hcon⟩, fun _ => hne⟩
    simp only [next_move, hst] at h0
    unfold minimax at h0
    rw [if_neg (by rw [hst]; simp)] at h0
    dsimp only at h0
    rw [if_neg (by simp)] at h0
    obtain ⟨c, hc⟩ := minLoop_fst_some _ (possible_boards b) i32Min i32Max _
      i32Max
    rw [hc] at h0
    exact absurd h0 (by simp)

/-- C6 witness: the starting board at depth 1. -/
theorem c6_witness :
    ((next_move defaultBoard 1 pickHead = none ↔
        status defaultBoard ≠ BoardStatus.OnGoing) ∧
      (status defaultBoard = BoardStatus.OnGoing →
        possible_boards defaultBoard ≠ [])) :=
  c6_next_move_none_iff Reachable.base (by decide) pickHead

/-- The state-threaded search returns the caller's board on every path. -/
lemma minimax_st_board (pick : Pick) (depth : Nat) (b : ConnectFourBoard)
    (alpha beta : Int) (mz : Bool) :
    (minimax_st pick depth b alpha beta mz).1 = b := by
  cases depth
  · rfl
  · unfold minimax_st
    by_cases hst : status b ≠ BoardStatus.OnGoing
    · rw [if_pos hst]
    · rw [if_neg hst]
      cases mz <;> rfl

/-- C7: `next_move` borrows the board immutably and the search mutates only
the clones built by `possible_boards`; in the state-threaded embedding the
board handed back on every execution path — terminal return, depth-0
return, and both loop exits including early pruning breaks — is the input
board, field for field. -/
theorem c7_next_move_preserves_board (b : ConnectFourBoard) (depth : Nat)
    (pick : Pick) :
    (next_move_st b depth pick).1 = b ∧
      (next_move_st b depth pick).1.player_one_bitboard =
        b.player_one_bitboard ∧
      (next_move_st b depth pick).1.player_two_bitboard =
        b.player_two_bitboard ∧
      (next_move_st b depth pick).1.move_count = b.move_count ∧
      (next_move_st b depth pick).1.heights = b.heights ∧
      (next_move_st b depth pick).1.history = b.history := by
  have h : (next_move_st b depth pick).1 = b := by
    unfold next_move_st
    rcases hst : status b with p | _ | _
    · rfl
    · rfl
    · dsimp only
      exact minimax_st_board pick depth b i32Min i32Max false
  exact ⟨h, by rw [h], by rw [h], by rw [h], by rw [h], by rw [h]⟩

/-! ### Search analysis: shared lemmas for claims C8 and C9 -/

lemma toI32_bounds (n : Nat) : i32Min ≤ toI32 n ∧ toI32 n ≤ i32Max := by
  have e1 : (2 : Nat) ^ 32 = 4294967296 := by norm_num
  have e2 : (2 : Nat) ^ 31 = 2147483648 := by norm_num
  have e3 : (2 : Int) ^ 32 = 4294967296 := by norm_num
  have h2 : n % 4294967296 < 4294967296 := Nat.mod_lt _ (by norm_num)
  unfold toI32 i32Min i32Max
  rw [e1, e2, e3]
  split <;> omega

lemma toI32_ne_min {n : Nat} (h : n % 2 ^ 32 ≠ 2 ^ 31) : i32Min < toI32 n := by
  have e1 : (2 : Nat) ^ 32 = 4294967296 := by norm_num
  have e2 : (2 : Nat) ^ 31 = 2147483648 := by norm_num
  have e3 : (2 : Int) ^ 32 = 4294967296 := by norm_num
  have h2 : n % 4294967296 < 4294967296 := Nat.mod_lt _ (by norm_num)
  rw [e1, e2] at h
  unfold toI32 i32Min
  rw [e1, e2, e3]
  split <;> omega

lemma evalulate_bounds (b : ConnectFourBoard) :
    i32Min ≤ evalulate_board b ∧ evalulate_board b ≤ i32Max := by
  unfold evalulate_board
  rcases status b with p | _ | _
  · rcases p with _ | _ <;> unfold i32Max i32Min <;> norm_num
  · unfold i32Max i32Min
    norm_num
  · exact toI32_bounds _

/-- On a reachable board not won by player Two the evaluation exceeds
`i32::MIN`: stones stack, so the low 32 occupancy bits cannot be exactly
bit 31 (column five, row three without the rows below it). -/
lemma evalulate_gt_min {b : ConnectFourBoard} (hr : Reachable b)
    (hw : status b ≠ BoardStatus.Winner Player.Two) :
    i32Min < evalulate_board b := by
  unfold evalulate_board
  rcases hst : status b with p | _ | _
  · rcases p with _ | _
    · unfold i32Max i32Min
      norm_num
    · exact absurd hst hw
  · unfold i32Min
    norm_num
  · refine toI32_ne_min ?_
    intro hmod
    obtain ⟨a0, a1, a2, a3, a4, a5, a6, hh, c0, c1l, c1u, c2l, c2u, c3l, c3u,
      c4l, c4u, c5l, c5u, c6l, c6u, hmc, hdisj, hocc⟩ := reachable_inv hr
    have h31 : (b.player_one_bitboard ||| b.player_two_bitboard).testBit 31 =
        true := by
      have hc := congrArg (fun x => Nat.testBit x 31) hmod
      dsimp only at hc
      rw [Nat.testBit_mod_two_pow, Nat.testBit_two_pow,
        show decide ((31 : Nat) < 32) = true from rfl, Bool.true_and,
        show decide ((31 : Nat) = 31) = true from rfl] at hc
      exact hc
    have h28 : (b.player_one_bitboard ||| b.player_two_bitboard).testBit 28 =
        false := by
      have hc := congrArg (fun x => Nat.testBit x 28) hmod
      dsimp only at hc
      rw [Nat.testBit_mod_two_pow, Nat.testBit_two_pow,
        show decide ((28 : Nat) < 32) = true from rfl, Bool.true_and,
        show decide ((31 : Nat) = 28) = false from rfl] at hc
      exact hc
    have r31 := (hocc 31).mp h31
    have r28 : Rng a0 a1 a2 a3 a4 a5 a6 28 := by
      unfold Rng at r31 ⊢
      omega
    rw [(hocc 28).mpr r28] at h28
    exact Bool.noConfusion h28

lemma evalulate_winner_two {b : ConnectFourBoard}
    (hst : status b = BoardStatus.Winner Player.Two) :
    evalulate_board b = i32Min := by
  unfold evalulate_board
  rw [hst]

lemma minimax_terminal {pick : Pick} {b : ConnectFourBoard} {d : Nat}
    {alpha beta : Int} {mz : Bool} (hst : status b ≠ BoardStatus.OnGoing) :
    minimax pick d b alpha beta mz = (none, evalulate_board b) := by
  cases d
  · rfl
  · unfold minimax
    rw [if_pos hst]

lemma minimax_succ_max {pick : Pick} {b : ConnectFourBoard} {d : Nat}
    {alpha beta : Int} (hst : status b = BoardStatus.OnGoing) :
    minimax pick (d + 1) b alpha beta true =
      maxLoop (fun pb a b2 => (minimax pick d pb a b2 false).2)
        (possible_boards b) alpha beta
        (((pick (possible_boards b)).map Prod.fst).getD Column.One) i32Min := by
  rw [minimax]
  rw [if_neg (by simp [hst])]
  dsimp only
  rw [if_pos rfl]

lemma minimax_succ_min {pick : Pick} {b : ConnectFourBoard} {d : Nat}
    {alpha beta : Int} (hst : status b = BoardStatus.OnGoing) :
    minimax pick (d + 1) b alpha beta false =
      minLoop (fun pb a b2 => (minimax pick d pb a b2 true).2)
        (possible_boards b) alpha beta
        (((pick (possible_boards b)).map Prod.fst).getD Column.One) i32Max := by
  rw [minimax]
  rw [if_neg (by simp [hst])]
  dsimp only
  rw [if_neg (by simp)]

lemma possible_boards_mem {b : ConnectFourBoard} {c : Column}
    {pb : ConnectFourBoard} (h : (c, pb) ∈ possible_boards b) :
    pb = (try_move b c).1 ∧ status b = BoardStatus.OnGoing ∧
      is_playable b c = true := by
  unfold possible_boards at h
  rw [List.mem_filterMap] at h
  obtain ⟨a, ha, hfa⟩ := h
  dsimp only at hfa
  by_cases hs : status b = BoardStatus.OnGoing
  · by_cases hp : is_playable b a = true
    · rw [try_move_ok hs hp] at hfa
      simp at hfa
      obtain ⟨rfl, rfl⟩ := hfa
      exact ⟨rfl, hs, hp⟩
    · rw [try_move_fullcol hs (by simpa using hp)] at hfa
      simp at hfa
  · rw [try_move_concluded hs] at hfa
    simp at hfa

lemma possible_boards_mem_of {b : ConnectFourBoard} {c : Column}
    (hs : status b = BoardStatus.OnGoing) (hp : is_playable b c = true) :
    (c, (try_move b c).1) ∈ possible_boards b := by
  unfold possible_boards
  rw [List.mem_filterMap]
  refine ⟨c, by cases c <;> simp [Column.all], ?_⟩
  dsimp only
  rw [try_move_ok hs hp]

lemma status_ongoing_w2 {b : ConnectFourBoard}
    (hs : status b = BoardStatus.OnGoing) :
    has_winner b.player_two_bitboard = false := by
  rcases h2 : has_winner b.player_two_bitboard
  · rfl
  · unfold status at hs
    rw [h2] at hs
    rcases h1 : has_winner b.player_one_bitboard <;> rw [h1] at hs <;>
      simp at hs

/-- A move by player One cannot hand the win to player Two. -/
lemma try_move_keeps_p1_no_win {b : ConnectFourBoard} {c : Column}
    (hs : status b = BoardStatus.OnGoing)
    (hcp : current_player b = Player.One) :
    status (try_move b c).1 ≠ BoardStatus.Winner Player.Two := by
  have hw2 := status_ongoing_w2 hs
  by_cases hp : is_playable b c = true
  · rw [try_move_one hs hp hcp]
    dsimp only
    unfold status
    dsimp only
    rw [hw2]
    split_ifs <;> simp_all
  · rw [try_move_fullcol hs (by simpa using hp)]
    dsimp only
    rw [hs]
    simp

lemma current_player_after_two {b : ConnectFourBoard} {c : Column}
    (hs : status b = BoardStatus.OnGoing) (hp : is_playable b c = true)
    (hcp : current_player b = Player.Two) :
    current_player (try_move b c).1 = Player.One := by
  rw [try_move_two hs hp hcp]
  unfold current_player Player.from_move_count at hcp ⊢
  dsimp only
  rw [Nat.and_one_is_mod] at hcp ⊢
  rcases Nat.mod_two_eq_zero_or_one b.move_count with h | h
  · rw [h] at hcp
    exact absurd hcp (by decide)
  · have h1 : (b.move_count + 1) % 2 = 0 := by omega
    rw [h1]

lemma maxLoop_ge (recur : ConnectFourBoard → Int → Int → Int) :
    ∀ (l : List (Column × ConnectFourBoard)) (alpha beta : Int)
      (best : Column) (m : Int),
      m ≤ (maxLoop recur l alpha beta best m).2 := by
  intro l
  induction l with
  | nil => exact fun alpha beta best m => le_refl m
  | cons hd tl ih =>
      intro alpha beta best m
      obtain ⟨c, pb⟩ := hd
      unfold maxLoop
      dsimp only
      by_cases hbr : beta ≤ max alpha (recur pb alpha beta)
      · rw [if_pos hbr]
        dsimp only
        split <;> omega
      · rw [if_neg hbr]
        calc m ≤ (if recur pb alpha beta > m then recur pb alpha beta else m) := by
              split <;> omega
          _ ≤ _ := ih _ _ _ _

lemma maxLoop_ge_head (recur : ConnectFourBoard → Int → Int → Int)
    (c : Column) (pb : ConnectFourBoard)
    (rest : List (Column × ConnectFourBoard)) (alpha beta : Int)
    (best : Column) (m : Int) :
    recur pb alpha beta ≤
      (maxLoop recur ((c, pb) :: rest) alpha beta best m).2 := by
  unfold maxLoop
  dsimp only
  by_cases hbr : beta ≤ max alpha (recur pb alpha beta)
  · rw [if_pos hbr]
    dsimp only
    split <;> omega
  · rw [if_neg hbr]
    calc recur pb alpha beta ≤
        (if recur pb alpha beta > m then recur pb alpha beta else m) := by
          split <;> omega
      _ ≤ _ := maxLoop_ge recur _ _ _ _ _

/-- The root loop of the search: when exactly one column's entries score
`i32::MIN` and every other entry scores strictly above it, the loop returns
that column with score `i32::MIN`, whatever the initial random column. -/
lemma minLoop_unique_min (recur : ConnectFourBoard → Int → Int → Int)
    (k : Column) :
    ∀ (l : List (Column × ConnectFourBoard)) (m : Int) (best : Column),
      i32Min < m →
      (∃ pb, (k, pb) ∈ l) →
      (∀ c pb, (c, pb) ∈ l → c ≠ k → ∀ b2, i32Min < b2 →
        i32Min < recur pb i32Min b2) →
      (∀ pb, (k, pb) ∈ l → ∀ b2, recur pb i32Min b2 = i32Min) →
      minLoop recur l i32Min m best m = (some k, i32Min) := by
  intro l
  induction l with
  | nil =>
      rintro m best hm ⟨pb, hpb⟩ ho hk
      simp at hpb
  | cons hd tl ih =>
      rintro m best hm ⟨pbk, hpbk⟩ ho hk
      obtain ⟨c, pb⟩ := hd
      unfold minLoop
      dsimp only
      by_cases hck : c = k
      · subst hck
        have he : recur pb i32Min m = i32Min :=
          hk pb (List.mem_cons_self _ _) m
        rw [he]
        simp only [if_pos hm]
        rw [if_pos (min_le_right m i32Min)]
      · have hev : i32Min < recur pb i32Min m :=
          ho c pb (List.mem_cons_self _ _) hck m hm
        rw [if_neg (by omega : ¬ min m (recur pb i32Min m) ≤ i32Min)]
        have heq : (if recur pb i32Min m < m then recur pb i32Min m else m) =
            min m (recur pb i32Min m) := by split <;> omega
        rw [heq]
        refine ih (min m (recur pb i32Min m)) _ (by omega) ⟨pbk, ?_⟩ ?_ ?_
        · rcases List.mem_cons.mp hpbk with he2 | hmem
          · exfalso
            simp [Prod.ext_iff] at he2
            exact hck he2.1.symm
          · exact hmem
        · intro c' pb' hmem' hck' b2 hb2
          exact ho c' pb' (List.mem_cons_of_mem _ hmem') hck' b2 hb2
        · intro pb' hmem' b2
          exact hk pb' (List.mem_cons_of_mem _ hmem') b2

/-! ### Claim C9 -/

/-- The columns whose immediate play makes player Two the winner. -/
def winning_moves (b : ConnectFourBoard) : List Column :=
  Column.all.filter fun column =>
    status (try_move b column).1 == BoardStatus.Winner Player.Two

lemma winning_moves_mem {b : ConnectFourBoard} {c : Column} :
    c ∈ winning_moves b ↔
      status (try_move b c).1 = BoardStatus.Winner Player.Two := by
  unfold winning_moves
  rw [List.mem_filter]
  constructor
  · rintro ⟨-, h2⟩
    simpa using h2
  · intro h
    exact ⟨by cases c <;> simp [Column.all], by simpa using h⟩

/-- Value of a depth-0-or-1 search below a child that is not an immediate
Two win: always strictly above `i32::MIN`. -/
lemma minimax_child_pos {pick : Pick} {pb : ConnectFourBoard} (d : Nat)
    (hd : d = 0 ∨ d = 1) (hr : Reachable pb)
    (hw : status pb ≠ BoardStatus.Winner Player.Two)
    (hcp1 : status pb = BoardStatus.OnGoing →
      current_player pb = Player.One) :
    ∀ b2, i32Min < b2 → i32Min < (minimax pick d pb i32Min b2 true).2 := by
  intro b2 hb2
  rcases hd with rfl | rfl
  · exact evalulate_gt_min hr hw
  · by_cases hst : status pb = BoardStatus.OnGoing
    · rw [show (1 : Nat) = 0 + 1 from rfl, minimax_succ_max hst]
      have hne := possible_boards_ne_nil hr hst
      obtain ⟨⟨c', pb'⟩, rest, hl⟩ := List.exists_cons_of_ne_nil hne
      rw [hl]
      have hmem : (c', pb') ∈ possible_boards pb := by
        rw [hl]
        exact List.mem_cons_self _ _
      obtain ⟨rfl, -, hp'⟩ := possible_boards_mem hmem
      have hg : i32Min < evalulate_board (try_move pb c').1 :=
        evalulate_gt_min (Reachable.play c' hr)
          (try_move_keeps_p1_no_win hst (hcp1 hst))
      calc i32Min < evalulate_board (try_move pb c').1 := hg
        _ ≤ _ := maxLoop_ge_head _ _ _ _ _ _ _ _
    · rw [minimax_terminal hst]
      exact evalulate_gt_min hr hw

/-- C9 (amended): on every reachable ongoing board where it is player Two's
turn (the automated player) and exactly one column immediately completes a
four-in-a-row for Two, `next_move` at depth 1 or 2 returns that column,
whatever the random tie-break draw. -/
theorem c9_wins_now {b : ConnectFourBoard} {k : Column} {depth : Nat}
    (hr : Reachable b) (hs : status b = BoardStatus.OnGoing)
    (hcp : current_player b = Player.Two)
    (hw : winning_moves b = [k]) (hd : depth = 1 ∨ depth = 2)
    (pick : Pick) :
    next_move b depth pick = some k := by
  have hkwin : status (try_move b k).1 = BoardStatus.Winner Player.Two := by
    have hmem : k ∈ winning_moves b := by
      rw [hw]
      exact List.mem_cons_self _ _
    exact winning_moves_mem.mp hmem
  have hkp : is_playable b k = true := by
    by_cases hp : is_playable b k = true
    · exact hp
    · exfalso
      rw [try_move_fullcol hs (by simpa using hp)] at hkwin
      dsimp only at hkwin
      rw [hs] at hkwin
      exact BoardStatus.noConfusion hkwin
  have hother : ∀ c : Column, c ≠ k →
      status (try_move b c).1 ≠ BoardStatus.Winner Player.Two := by
    intro c hck hcon
    have hmem : c ∈ winning_moves b := winning_moves_mem.mpr hcon
    rw [hw] at hmem
    simp at hmem
    exact hck hmem
  obtain ⟨d, hd2, rfl⟩ : ∃ d, (d = 0 ∨ d = 1) ∧ depth = d + 1 := by
    rcases hd with rfl | rfl
    · exact ⟨0, Or.inl rfl, rfl⟩
    · exact ⟨1, Or.inr rfl, rfl⟩
  unfold next_move
  rw [hs]
  dsimp only
  rw [minimax_succ_min hs]
  have hroot := minLoop_unique_min
    (fun pb a b2 => (minimax pick d pb a b2 true).2) k (possible_boards b)
    i32Max (((pick (possible_boards b)).map Prod.fst).getD Column.One)
    (by decide) ⟨(try_move b k).1, possible_boards_mem_of hs hkp⟩ ?ho ?hk
  case ho =>
    intro c pb hmem hck b2 hb2
    obtain ⟨rfl, -, hp⟩ := possible_boards_mem hmem
    exact minimax_child_pos d hd2 (Reachable.play c hr) (hother c hck)
      (fun _ => current_player_after_two hs hp hcp) b2 hb2
  case hk =>
    intro pb hmem b2
    obtain ⟨rfl, -, -⟩ := possible_boards_mem hmem
    dsimp only
    rw [minimax_terminal (by rw [hkwin]; simp)]
    exact evalulate_winner_two hkwin
  rw [hroot]

/-- Board reached by the legal column sequence 1,2,6,2,6,3,7,3,7,4,2
(player One moves first): Two holds row-0 stones in columns 2,3,4 (blocked
on the left), row-1 stones in columns 2,3, and it is Two's turn. -/
def c9_board : ConnectFourBoard :=
  [Column.One, Column.Two, Column.Six, Column.Two, Column.Six, Column.Three,
    Column.Seven, Column.Three, Column.Seven, Column.Four, Column.Two].foldl
    (fun b c => (try_move b c).1) defaultBoard

set_option maxRecDepth 100000 in
/-- C9 (counterexample): on `c9_board` it is Two's turn and exactly column
Five completes a four-in-a-row for Two, yet at depth 3 the search returns
column One — playing it creates a double threat that also forces a win and
is examined first — not the completing column.  The claim fails for
depth 3. -/
theorem c9_counterexample :
    status c9_board = BoardStatus.OnGoing ∧
      current_player c9_board = Player.Two ∧
      winning_moves c9_board = [Column.Five] ∧
      next_move c9_board 3 pickHead = some Column.One ∧
      some Column.One ≠ some Column.Five :=
  ⟨by decide, by decide, by decide, by decide, by decide⟩

/-- Board reached by the legal column sequence 1,2,1,2,3,2,3: Two's only
immediately winning column is the second (a vertical four). -/
def c9_wboard : ConnectFourBoard :=
  [Column.One, Column.Two, Column.One, Column.Two, Column.Three, Column.Two,
    Column.Three].foldl (fun b c => (try_move b c).1) defaultBoard

set_option maxRecDepth 100000 in
/-- C9 witness: the depth-1 search finds the unique winning column. -/
theorem c9_witness : next_move c9_wboard 1 pickHead = some Column.Two :=
  c9_wins_now
    (Reachable.play Column.Three (Reachable.play Column.Two
      (Reachable.play Column.Three (Reachable.play Column.Two
        (Reachable.play Column.One (Reachable.play Column.Two
          (Reachable.play Column.One Reachable.base)))))))
    (by decide) (by decide) (by decide) (Or.inl rfl) pickHead

/-! ### Claim C8: alpha-beta pruning versus full minimax -/

lemma minimax_nc_terminal {pick : Pick} {b : ConnectFourBoard} {d : Nat}
    {mz : Bool} (hst : status b ≠ BoardStatus.OnGoing) :
    minimax_nc pick d b mz = (none, evalulate_board b) := by
  cases d
  · rfl
  · rw [minimax_nc]
    rw [if_pos hst]

lemma minimax_nc_succ_max {pick : Pick} {b : ConnectFourBoard} {d : Nat}
    (hst : status b = BoardStatus.OnGoing) :
    minimax_nc pick (d + 1) b true =
      maxLoopNC (fun pb => (minimax_nc pick d pb false).2)
        (possible_boards b)
        (((pick (possible_boards b)).map Prod.fst).getD Column.One) i32Min := by
  rw [minimax_nc]
  rw [if_neg (by simp [hst])]
  dsimp only
  rw [if_pos rfl]

lemma minimax_nc_succ_min {pick : Pick} {b : ConnectFourBoard} {d : Nat}
    (hst : status b = BoardStatus.OnGoing) :
    minimax_nc pick (d + 1) b false =
      minLoopNC (fun pb => (minimax_nc pick d pb true).2)
        (possible_boards b)
        (((pick (possible_boards b)).map Prod.fst).getD Column.One) i32Max := by
  rw [minimax_nc]
  rw [if_neg (by simp [hst])]
  dsimp only
  rw [if_neg (by simp)]

lemma maxLoopNC_ge (recur : ConnectFourBoard → Int) :
    ∀ (l : List (Column × ConnectFourBoard)) (best : Column) (m : Int),
      m ≤ (maxLoopNC recur l best m).2 := by
  intro l
  induction l with
  | nil => exact fun best m => le_refl m
  | cons hd tl ih =>
      intro best m
      obtain ⟨c, pb⟩ := hd
      unfold maxLoopNC
      dsimp only
      calc m ≤ (if recur pb > m then recur pb else m) := by split <;> omega
        _ ≤ _ := ih _ _

lemma minLoopNC_le (recur : ConnectFourBoard → Int) :
    ∀ (l : List (Column × ConnectFourBoard)) (best : Column) (m : Int),
      (minLoopNC recur l best m).2 ≤ m := by
  intro l
  induction l with
  | nil => exact fun best m => le_refl m
  | cons hd tl ih =>
      intro best m
      obtain ⟨c, pb⟩ := hd
      unfold minLoopNC
      dsimp only
      calc (minLoopNC recur tl _ (if recur pb < m then recur pb else m)).2 ≤
          (if recur pb < m then recur pb else m) := ih _ _
        _ ≤ m := by split <;> omega

lemma minLoopNC_lb (recur : ConnectFourBoard → Int)
    (hb : ∀ pb, i32Min ≤ recur pb) :
    ∀ (l : List (Column × ConnectFourBoard)) (best : Column) (m : Int),
      i32Min ≤ m → i32Min ≤ (minLoopNC recur l best m).2 := by
  intro l
  induction l with
  | nil => exact fun best m hm => hm
  | cons hd tl ih =>
      intro best m hm
      obtain ⟨c, pb⟩ := hd
      unfold minLoopNC
      dsimp only
      refine ih _ _ ?_
      have := hb pb
      split <;> omega

lemma minLoop_lb (recur : ConnectFourBoard → Int → Int → Int)
    (hb : ∀ pb a b2, i32Min ≤ recur pb a b2) :
    ∀ (l : List (Column × ConnectFourBoard)) (alpha beta : Int)
      (best : Column) (m : Int),
      i32Min ≤ m → i32Min ≤ (minLoop recur l alpha beta best m).2 := by
  intro l
  induction l with
  | nil => exact fun alpha beta best m hm => hm
  | cons hd tl ih =>
      intro alpha beta best m hm
      obtain ⟨c, pb⟩ := hd
      unfold minLoop
      dsimp only
      have hpb := hb pb alpha beta
      by_cases hbr : min beta (recur pb alpha beta) ≤ alpha
      · rw [if_pos hbr]
        dsimp only
        split <;> omega
      · rw [if_neg hbr]
        refine ih _ _ _ _ ?_
        split <;> omega

/-- Unpruned search values never fall below `i32::MIN`. -/
lemma minimax_nc_lb (pick : Pick) :
    ∀ (d : Nat) (b : ConnectFourBoard) (mz : Bool),
      i32Min ≤ (minimax_nc pick d b mz).2 := by
  intro d
  induction d with
  | zero => exact fun b mz => (evalulate_bounds b).1
  | succ d ih =>
      intro b mz
      by_cases hst : status b = BoardStatus.OnGoing
      · rcases mz
        · rw [minimax_nc_succ_min hst]
          exact minLoopNC_lb _ (fun pb => ih pb true) _ _ _ (by decide)
        · rw [minimax_nc_succ_max hst]
          calc i32Min ≤ i32Min := le_refl _
            _ ≤ _ := maxLoopNC_ge _ _ _ _
      · rw [minimax_nc_terminal hst]
        exact (evalulate_bounds b).1

/-- Pruned search values never fall below `i32::MIN`. -/
lemma minimax_lb (pick : Pick) :
    ∀ (d : Nat) (b : ConnectFourBoard) (alpha beta : Int) (mz : Bool),
      i32Min ≤ (minimax pick d b alpha beta mz).2 := by
  intro d
  induction d with
  | zero => exact fun b alpha beta mz => (evalulate_bounds b).1
  | succ d ih =>
      intro b alpha beta mz
      by_cases hst : status b = BoardStatus.OnGoing
      · rcases mz
        · rw [minimax_succ_min hst]
          exact minLoop_lb _ (fun pb a b2 => ih pb a b2 true) _ _ _ _ _
            (by decide)
        · rw [minimax_succ_max hst]
          calc i32Min ≤ i32Min := le_refl _
            _ ≤ _ := maxLoop_ge _ _ _ _ _ _
      · rw [minimax_terminal hst]
        exact (evalulate_bounds b).1

/-- With every entry's value at least `i32::MIN`, the unpruned minimizing
loop started at the floor never updates. -/
lemma minLoopNC_floor (recur : ConnectFourBoard → Int)
    (hb : ∀ pb, i32Min ≤ recur pb) :
    ∀ (l : List (Column × ConnectFourBoard)) (best : Column),
      minLoopNC recur l best i32Min = (some best, i32Min) := by
  intro l
  induction l with
  | nil => exact fun best => rfl
  | cons hd tl ih =>
      intro best
      obtain ⟨c, pb⟩ := hd
      unfold minLoopNC
      dsimp only
      have hnb : ¬ recur pb < i32Min := by
        have := hb pb
        omega
      simp only [if_neg hnb]
      exact ih best

/-- Alpha-beta window soundness for the maximizing loop.  `a0` is the alpha
the node was entered with and `β` its (fixed) beta; the loop's current alpha
always equals `max a0 m` for the current running maximum `m` of either
search, and under the inductive window property of the child searches the
pruned loop fails low, is exact, or fails high together with the unpruned
loop. -/
lemma maxLoop_window (recur_p : ConnectFourBoard → Int → Int → Int)
    (recur_v : ConnectFourBoard → Int) (a0 β : Int)
    (hwin : ∀ pb a, i32Min ≤ a → a < β →
      ((recur_v pb ≤ a → recur_p pb a β ≤ a) ∧
       (a < recur_v pb → recur_v pb < β → recur_p pb a β = recur_v pb) ∧
       (β ≤ recur_v pb → β ≤ recur_p pb a β))) :
    ∀ (l : List (Column × ConnectFourBoard)) (alpha mp mv : Int)
      (best bestv : Column),
      i32Min ≤ a0 → a0 < β → mp < β → mv < β →
      alpha = max a0 mp → alpha = max a0 mv →
      (((maxLoopNC recur_v l bestv mv).2 ≤ a0 →
          (maxLoop recur_p l alpha β best mp).2 ≤ a0) ∧
       (a0 < (maxLoopNC recur_v l bestv mv).2 →
          (maxLoopNC recur_v l bestv mv).2 < β →
          (maxLoop recur_p l alpha β best mp).2 =
            (maxLoopNC recur_v l bestv mv).2) ∧
       (β ≤ (maxLoopNC recur_v l bestv mv).2 →
          β ≤ (maxLoop recur_p l alpha β best mp).2)) := by
  intro l
  induction l with
  | nil =>
      intro alpha mp mv best bestv h0 h1 hmp hmv he1 he2
      refine ⟨fun hv => ?_, fun hv1 hv2 => ?_, fun hv => ?_⟩
      · have hv' : mv ≤ a0 := hv
        show mp ≤ a0
        omega
      · have hv1' : a0 < mv := hv1
        show mp = mv
        omega
      · have hv' : β ≤ mv := hv
        exact absurd hv' (by omega)
  | cons hd tl ih =>
      intro alpha mp mv best bestv h0 h1 hmp hmv he1 he2
      obtain ⟨c, pb⟩ := hd
      have halb : i32Min ≤ alpha := by omega
      have haub : alpha < β := by omega
      obtain ⟨hwa, hwb, hwc⟩ := hwin pb alpha halb haub
      unfold maxLoop maxLoopNC
      dsimp only
      by_cases hv1 : recur_v pb ≤ alpha
      · have hep := hwa hv1
        rw [if_neg (show ¬ β ≤ max alpha (recur_p pb alpha β) by omega)]
        rw [show max alpha (recur_p pb alpha β) = alpha by omega]
        exact ih alpha _ _ _ _ h0 h1 (by split <;> omega) (by split <;> omega)
          (by split <;> omega) (by split <;> omega)
      · by_cases hv2 : recur_v pb < β
        · have hep := hwb (by omega) hv2
          rw [hep]
          rw [if_neg (show ¬ β ≤ max alpha (recur_v pb) by omega)]
          exact ih (max alpha (recur_v pb)) _ _ _ _ h0 h1
            (by split <;> omega) (by split <;> omega) (by split <;> omega)
            (by split <;> omega)
        · have hep := hwc (by omega)
          rw [if_pos (show β ≤ max alpha (recur_p pb alpha β) by omega)]
          dsimp only
          have h5 : recur_v pb ≤ (if recur_v pb > mv then recur_v pb else mv) := by
            split <;> omega
          have h6 := maxLoopNC_ge recur_v tl
            (if recur_v pb > mv then c else bestv)
            (if recur_v pb > mv then recur_v pb else mv)
          refine ⟨fun hv => ?_, fun hv1 hv2 => ?_, fun hv => ?_⟩
          · exact absurd hv (by omega)
          · exact absurd hv2 (by omega)
          · show β ≤ (if recur_p pb alpha β > mp then recur_p pb alpha β else mp)
            split <;> omega

/-- Alpha-beta window soundness for the minimizing loop: mirror image of
`maxLoop_window` with the loop's beta equal to `min b0 m`. -/
lemma minLoop_window (recur_p : ConnectFourBoard → Int → Int → Int)
    (recur_v : ConnectFourBoard → Int) (α b0 : Int)
    (hwin : ∀ pb b2, α < b2 → b2 ≤ i32Max →
      ((recur_v pb ≤ α → recur_p pb α b2 ≤ α) ∧
       (α < recur_v pb → recur_v pb < b2 → recur_p pb α b2 = recur_v pb) ∧
       (b2 ≤ recur_v pb → b2 ≤ recur_p pb α b2))) :
    ∀ (l : List (Column × ConnectFourBoard)) (beta mp mv : Int)
      (best bestv : Column),
      α < b0 → b0 ≤ i32Max → α < mp → α < mv →
      beta = min b0 mp → beta = min b0 mv →
      (((minLoopNC recur_v l bestv mv).2 ≤ α →
          (minLoop recur_p l α beta best mp).2 ≤ α) ∧
       (α < (minLoopNC recur_v l bestv mv).2 →
          (minLoopNC recur_v l bestv mv).2 < b0 →
          (minLoop recur_p l α beta best mp).2 =
            (minLoopNC recur_v l bestv mv).2) ∧
       (b0 ≤ (minLoopNC recur_v l bestv mv).2 →
          b0 ≤ (minLoop recur_p l α beta best mp).2)) := by
  intro l
  induction l with
  | nil =>
      intro beta mp mv best bestv h0 h1 hmp hmv he1 he2
      refine ⟨fun hv => ?_, fun hv1 hv2 => ?_, fun hv => ?_⟩
      · have hv' : mv ≤ α := hv
        exact absurd hv' (by omega)
      · have hv2' : mv < b0 := hv2
        show mp = mv
        omega
      · have hv' : b0 ≤ mv := hv
        show b0 ≤ mp
        omega
  | cons hd tl ih =>
      intro beta mp mv best bestv h0 h1 hmp hmv he1 he2
      obtain ⟨c, pb⟩ := hd
      have hblb : α < beta := by omega
      have hbub : beta ≤ i32Max := by omega
      obtain ⟨hwa, hwb, hwc⟩ := hwin pb beta hblb hbub
      unfold minLoop minLoopNC
      dsimp only
      by_cases hv1 : beta ≤ recur_v pb
      · have hep := hwc hv1
        rw [if_neg (show ¬ min beta (recur_p pb α beta) ≤ α by omega)]
        rw [show min beta (recur_p pb α beta) = beta by omega]
        exact ih beta _ _ _ _ h0 h1 (by split <;> omega) (by split <;> omega)
          (by split <;> omega) (by split <;> omega)
      · by_cases hv2 : α < recur_v pb
        · have hep := hwb hv2 (by omega)
          rw [hep]
          rw [if_neg (show ¬ min beta (recur_v pb) ≤ α by omega)]
          exact ih (min beta (recur_v pb)) _ _ _ _ h0 h1
            (by split <;> omega) (by split <;> omega) (by split <;> omega)
            (by split <;> omega)
        · have hep := hwa (by omega)
          rw [if_pos (show min beta (recur_p pb α beta) ≤ α by omega)]
          dsimp only
          have h5 : (if recur_v pb < mv then recur_v pb else mv) ≤
              recur_v pb := by split <;> omega
          have h6 := minLoopNC_le recur_v tl
            (if recur_v pb < mv then c else bestv)
            (if recur_v pb < mv then recur_v pb else mv)
          refine ⟨fun hv => ?_, fun hv1 hv2' => ?_, fun hv => ?_⟩
          · show (if recur_p pb α beta < mp then recur_p pb α beta else mp) ≤ α
            split <;> omega
          · exact absurd hv1 (by omega)
          · exact absurd hv (by omega)

/-- The alpha-beta window property, by induction on depth: inside any window
the pruned score fails low, is exact, or fails high exactly when the
unpruned score does. -/
lemma minimax_window (pick : Pick) :
    ∀ (d : Nat) (pb : ConnectFourBoard) (alpha beta : Int) (mz : Bool),
      i32Min ≤ alpha → alpha < beta → beta ≤ i32Max →
      (((minimax_nc pick d pb mz).2 ≤ alpha →
          (minimax pick d pb alpha beta mz).2 ≤ alpha) ∧
       (alpha < (minimax_nc pick d pb mz).2 →
          (minimax_nc pick d pb mz).2 < beta →
          (minimax pick d pb alpha beta mz).2 = (minimax_nc pick d pb mz).2) ∧
       (beta ≤ (minimax_nc pick d pb mz).2 →
          beta ≤ (minimax pick d pb alpha beta mz).2)) := by
  intro d
  induction d with
  | zero =>
      intro pb alpha beta mz h0 h1 h2
      exact ⟨fun h => h, fun _ _ => rfl, fun h => h⟩
  | succ d ih =>
      intro pb alpha beta mz h0 h1 h2
      by_cases hst : status pb = BoardStatus.OnGoing
      · rcases mz
        · rw [minimax_succ_min hst, minimax_nc_succ_min hst]
          exact minLoop_window _ _ alpha beta
            (fun pb' b2 hb1 hb2 => ih pb' alpha b2 true h0 hb1 hb2)
            (possible_boards pb) beta i32Max i32Max _ _ h1 h2 (by omega)
            (by omega) (by omega) (by omega)
        · rw [minimax_succ_max hst, minimax_nc_succ_max hst]
          exact maxLoop_window _ _ alpha beta
            (fun pb' a ha1 ha2 => ih pb' a beta false ha1 ha2 h2)
            (possible_boards pb) alpha i32Min i32Min _ _ h0 h1 (by omega)
            (by omega) (by omega) (by omega)
      · rw [minimax_terminal hst, minimax_nc_terminal hst]
        exact ⟨fun h => h, fun _ _ => rfl, fun h => h⟩

/-- At the root — the full window, minimizing — the pruned loop computes the
same column and score as the unpruned loop: every entry is either exact
inside the window or pinned to one of the attainable extremes, so the two
running minima and the chosen columns evolve identically, and an early
break can only happen once the floor `i32::MIN` is reached, after which the
unpruned loop never updates again. -/
lemma minLoop_root (recur_p : ConnectFourBoard → Int → Int → Int)
    (recur_v : ConnectFourBoard → Int)
    (hwin : ∀ pb b2, i32Min < b2 → b2 ≤ i32Max →
      ((recur_v pb ≤ i32Min → recur_p pb i32Min b2 ≤ i32Min) ∧
       (i32Min < recur_v pb → recur_v pb < b2 →
          recur_p pb i32Min b2 = recur_v pb) ∧
       (b2 ≤ recur_v pb → b2 ≤ recur_p pb i32Min b2)))
    (hlbv : ∀ pb, i32Min ≤ recur_v pb)
    (hlbp : ∀ pb b2, i32Min ≤ recur_p pb i32Min b2) :
    ∀ (l : List (Column × ConnectFourBoard)) (m : Int) (best : Column),
      i32Min < m → m ≤ i32Max →
      minLoop recur_p l i32Min m best m = minLoopNC recur_v l best m := by
  intro l
  induction l with
  | nil => exact fun m best hm hM => rfl
  | cons hd tl ih =>
      intro m best hm hM
      obtain ⟨c, pb⟩ := hd
      unfold minLoop minLoopNC
      dsimp only
      obtain ⟨hwa, hwb, hwc⟩ := hwin pb m hm hM
      by_cases hv1 : recur_v pb ≤ i32Min
      · have hev : recur_v pb = i32Min := le_antisymm hv1 (hlbv pb)
        have hep : recur_p pb i32Min m = i32Min :=
          le_antisymm (hwa hv1) (hlbp pb m)
        rw [hev, hep]
        simp only [if_pos hm]
        rw [if_pos (min_le_right m i32Min)]
        rw [minLoopNC_floor recur_v hlbv tl c]
      · by_cases hv2 : recur_v pb < m
        · have hep := hwb (by omega) hv2
          rw [hep]
          simp only [if_pos hv2]
          rw [show min m (recur_v pb) = recur_v pb by omega]
          rw [if_neg (by omega : ¬ recur_v pb ≤ i32Min)]
          exact ih (recur_v pb) c (by omega) (by omega)
        · have hep := hwc (by omega)
          have hc1 : ¬ recur_p pb i32Min m < m := by omega
          have hc2 : ¬ recur_v pb < m := by omega
          simp only [if_neg hc1, if_neg hc2]
          rw [show min m (recur_p pb i32Min m) = m by omega]
          rw [if_neg (by omega : ¬ m ≤ i32Min)]
          exact ih m best hm hM

/-- With the full window the pruned root search equals the unpruned one,
column and score alike. -/
lemma minimax_root_eq (pick : Pick) (d : Nat) (b : ConnectFourBoard) :
    minimax pick d b i32Min i32Max false = minimax_nc pick d b false := by
  cases d with
  | zero => rfl
  | succ d =>
      by_cases hst : status b = BoardStatus.OnGoing
      · rw [minimax_succ_min hst, minimax_nc_succ_min hst]
        refine minLoop_root _ _ ?_ (fun pb => minimax_nc_lb pick d pb true)
          (fun pb b2 => minimax_lb pick d pb i32Min b2 true) _ i32Max _
          (by decide) (le_refl _)
        intro pb b2 hb1 hb2
        exact minimax_window pick d pb i32Min b2 true (le_refl _) hb1 hb2
      · rw [minimax_terminal hst, minimax_nc_terminal hst]

/-- C8 (counterexample): a board on which player One wins immediately in
every playable column.  With no strict improvement over the initial random
column, the two searches return whatever their independent random draws
chose: the pruned search drawing the first playable column answers One, the
unpruned search drawing the last answers Seven. -/
def c8_board : ConnectFourBoard :=
  { player_one_bitboard := 7 + (7 <<< 14) + (7 <<< 28) + (7 <<< 42)
    player_two_bitboard := 0
    move_count := 0
    heights := [3, 13, 17, 27, 31, 41, 45]
    history := [] }

/-- C8 (counterexample): pruned and unpruned searches at the same depth can
pick different columns when the random tie-break draws differ. -/
theorem c8_counterexample :
    status c8_board = BoardStatus.OnGoing ∧
      next_move c8_board 1 pickHead = some Column.One ∧
      next_move_nc c8_board 1 pickLast = some Column.Seven ∧
      some Column.One ≠ some Column.Seven :=
  ⟨by decide, by decide, by decide, by decide⟩

/-- C8 (amended): for every reachable board and every depth, when the two
searches share the same tie-break draws, alpha-beta `next_move` selects the
same column as unpruned minimax and the two root calls compute the same
score (indeed the same column-score pair). -/
theorem c8_pruned_eq_unpruned {b : ConnectFourBoard} (depth : Nat)
    (hr : Reachable b) (pick : Pick) :
    next_move b depth pick = next_move_nc b depth pick ∧
      minimax pick depth b i32Min i32Max false =
        minimax_nc pick depth b false := by
  have h := minimax_root_eq pick depth b
  refine ⟨?_, h⟩
  unfold next_move next_move_nc
  rcases status b with p | _ | _
  · rfl
  · rfl
  · rw [h]

/-- C8 witness: the searches agree on the starting board at depth 2. -/
theorem c8_witness :
    next_move defaultBoard 2 pickHead = next_move_nc defaultBoard 2 pickHead ∧
      minimax pickHead 2 defaultBoard i32Min i32Max false =
        minimax_nc pickHead 2 defaultBoard false :=
  c8_pruned_eq_unpruned 2 Reachable.base pickHead

end ConnectFors
